import Mathlib

/-!
Verification of the exifsorter archive engine.

Shallow embedding of the archival placement algorithm (`Algorithm.Sort`) and its
deduplication companion (`DeDuplicate`, `DeduplicateAll`) from the exifsorter
repository, together with the Go standard-library path helpers the code relies
on (`path.Clean`, `filepath.Rel`, `filepath.Dir`, `path.Ext`, `path.Join`, and
the fixed `path.Match` pattern used by `isCalendarStoredFile`).

Strings model Go strings; the path helpers work on the underlying character
lists.  Fallible operations return `Except`/`Option`; filesystem effects are
modelled by oracle environments plus an explicit event trace.
-/

set_option maxHeartbeats 1000000

/-! ## Character-level path helpers (Go `path`/`path/filepath`, Unix rules) -/

/-- Split a character list at every `'/'`.  `splitChar [] = [[]]`, matching the
behaviour of splitting a string on a separator. -/
def splitChar : List Char → List (List Char)
  | [] => [[]]
  | c :: cs =>
    if c = '/' then [] :: splitChar cs
    else
      match splitChar cs with
      | [] => [[c]]
      | h :: t => (c :: h) :: t

/-- Join components with `'/'`; inverse of `splitChar`. -/
def joinSlash : List (List Char) → List Char
  | [] => []
  | [x] => x
  | x :: y :: ys => x ++ '/' :: joinSlash (y :: ys)

/-- One step of Go `path.Clean`'s element processing: skip empty and `.`
components, resolve `..` against the stack (dropping it at the root when the
path is rooted, accumulating it otherwise), push everything else. -/
def cleanStep (rooted : Bool) (acc : List (List Char)) (c : List Char) : List (List Char) :=
  if c = [] ∨ c = ['.'] then acc
  else if c = ['.', '.'] then
    match acc with
    | [] => if rooted then [] else [['.', '.']]
    | top :: rest => if top = ['.', '.'] then c :: acc else rest
  else c :: acc

/-- Process all components of a path as Go `path.Clean` does; the result is in
order (the fold accumulates reversed). -/
def cleanComps (rooted : Bool) (cs : List (List Char)) : List (List Char) :=
  (cs.foldl (cleanStep rooted) []).reverse

/-- Go `path.Clean` on character lists (equal to `filepath.Clean` on Unix). -/
def pathCleanChars (p : List Char) : List Char :=
  if p = [] then ['.']
  else
    let rooted : Bool := p.head? = some '/'
    let out := cleanComps rooted (splitChar p)
    if rooted then '/' :: joinSlash out
    else if out = [] then ['.']
    else joinSlash out

/-- Go `path.Clean` on strings. -/
def pathClean (p : String) : String :=
  ⟨pathCleanChars p.data⟩

/-- The prefix of `p` up to and including its final `'/'` (empty when `p` has
no slash); Go `filepath.Dir` cleans exactly this prefix. -/
def upToLastSlash (p : List Char) : List Char :=
  (p.reverse.dropWhile (fun c => c ≠ '/')).reverse

/-- Go `filepath.Dir` on Unix: all but the last element of the path, cleaned;
`"."` when the path contains no slash. -/
def filepathDir (p : String) : String :=
  ⟨pathCleanChars (upToLastSlash p.data)⟩

/-- Strip the longest common prefix of two component lists, returning the two
remainders (the walk to the first differing element in Go `filepath.Rel`). -/
def stripCommon : List (List Char) → List (List Char) → List (List Char) × List (List Char)
  | a :: as, b :: bs => if a = b then stripCommon as bs else (a :: as, b :: bs)
  | as, bs => (as, bs)

/-- Component decomposition used by `filepath.Rel` after cleaning: the empty
path has no components, the root `"/"` is the single empty component. -/
def relSplit (p : List Char) : List (List Char) :=
  if p = [] then []
  else if p = ['/'] then [[]]
  else splitChar p

/-- Go `filepath.Rel basepath targpath` on Unix (character lists): clean both
paths, handle the equal and mixed rooted/relative cases, strip the common
component prefix, then either fail (remaining base starts with `..`), descend
into the target, or climb with one `..` per remaining base component. -/
def filepathRelChars (basepath targpath : List Char) : Option (List Char) :=
  let base0 := pathCleanChars basepath
  let targ := pathCleanChars targpath
  if targ = base0 then some ['.']
  else
    let base := if base0 = ['.'] then [] else base0
    let baseSlashed : Bool := base.head? = some '/'
    let targSlashed : Bool := targ.head? = some '/'
    if baseSlashed ≠ targSlashed then none
    else
      let pr := stripCommon (relSplit base) (relSplit targ)
      if pr.1.head? = some ['.', '.'] then none
      else if pr.1 = [] then some (joinSlash pr.2)
      else some (joinSlash (List.replicate pr.1.length ['.', '.'] ++ pr.2))

/-- Go `filepath.Rel` on strings; `none` models the error return. -/
def filepathRel (basepath targpath : String) : Option String :=
  match filepathRelChars basepath.data targpath.data with
  | none => none
  | some r => some ⟨r⟩

/-- Go `path.Ext`: scan the path backwards; the suffix from the final dot in
the final slash-separated element, or empty. -/
def pathExtChars : List Char → List Char → List Char
  | [], _ => []
  | c :: cs, acc =>
    if c = '/' then []
    else if c = '.' then c :: acc
    else pathExtChars cs (c :: acc)

/-- Go `path.Ext` on strings. -/
def pathExt (p : String) : String :=
  ⟨pathExtChars p.data.reverse []⟩

/-- Go `path.Join` of two elements: empty elements are dropped, the rest are
joined with `'/'` and cleaned; the join of two empty strings is empty. -/
def pathJoin (a b : String) : String :=
  if a = "" ∧ b = "" then ""
  else if a = "" then ⟨pathCleanChars b.data⟩
  else if b = "" then ⟨pathCleanChars a.data⟩
  else ⟨pathCleanChars (a.data ++ '/' :: b.data)⟩

/-! ## The deduplication engine (`pkg/archive`, dedup source file) -/

/-- `pathInArchive` from the dedup source: the relative path of `filename`
within `archiveRoot`, an error when `filepath.Rel` fails or when the relative
path starts with `".."`. -/
def pathInArchive (archiveRoot filename : String) : Except String String :=
  match filepathRelChars archiveRoot.data filename.data with
  | none => .error ("Rel: cannot make target relative to base")
  | some rel =>
    if (['.', '.'] : List Char).isPrefixOf rel then .error ("path is outside of archive")
    else .ok ⟨rel⟩

/-- `isCalendarStoredFile`: the fixed `path.Match` pattern
`[0-9][0-9][0-9][0-9]/[0-9][0-9]/*` — exactly three components, a four-digit
year, a two-digit month, and any final component without a separator. -/
def isCalendarStoredFile (filename : String) : Bool :=
  match splitChar filename.data with
  | [y, m, _] => y.length == 4 && y.all Char.isDigit && m.length == 2 && m.all Char.isDigit
  | _ => false

/-- `DeDupTask` from the dedup source. -/
structure DeDupTask where
  ToKeep : String := ""
  ReCreateLinks : List String := []
  DeleteFiles : List String := []
deriving DecidableEq, Repr

/-- Structural lexicographic comparator on the underlying characters; agrees
with the string order (Go compares byte-wise, which for UTF-8 coincides with
code-point order). -/
def strLexLe : List Char → List Char → Bool
  | [], _ => true
  | _ :: _, [] => false
  | a :: as, b :: bs =>
    if a < b then true
    else if b < a then false
    else strLexLe as bs

/-- Decidability of the string order through the structural comparator
`strLexLe` (so that concrete runs of the engine evaluate by `decide`). -/
def strLeDec : DecidableRel (fun a b : String => a ≤ b) := fun a b =>
  decidable_of_iff (strLexLe a.data b.data = true) (by
    have key : ∀ x y : List Char, strLexLe x y = true ↔ ¬ List.lt y x := by
      intro x
      induction x with
      | nil =>
        intro y
        constructor
        · intro _ h
          cases h
        · intro _
          rfl
      | cons c cs ih =>
        intro y
        cases y with
        | nil =>
          constructor
          · intro h
            simp [strLexLe] at h
          · intro h
            exact absurd (List.lt.nil c cs) h
        | cons d ds =>
          by_cases h1 : c < d
          · refine iff_of_true (by simp [strLexLe, h1]) (fun hlt => ?_)
            cases hlt with
            | head _ _ hdc => exact absurd hdc (asymm h1)
            | tail hdc hcd _ => exact absurd h1 hcd
          · by_cases h2 : d < c
            · exact iff_of_false (by simp [strLexLe, h1, h2])
                (fun h => h (List.lt.head _ _ h2))
            · have he : strLexLe (c :: cs) (d :: ds) = strLexLe cs ds := by
                simp [strLexLe, h1, h2]
              rw [he, ih ds]
              constructor
              · intro h hlt
                cases hlt with
                | head _ _ hdc => exact absurd hdc h2
                | tail _ _ htl => exact h htl
              · intro h hlt
                exact h (List.lt.tail h2 h1 hlt)
    have chain : a ≤ b ↔ ¬ List.lt b.data a.data := by
      rw [String.le_iff_toList_le]
      exact not_lt.symm.trans (not_congr (List.lt_iff_lex_lt b.data a.data).symm)
    exact (key a.data b.data).trans chain.symm)

/-- Go `sort.Strings`: ascending lexicographic sort. -/
def sortStrings (l : List String) : List String :=
  @List.insertionSort String (· ≤ ·) strLeDec l

/-- The loop body of `DeDuplicate` over the sorted duplicate list, carrying the
task under construction and the set (list) of directories already holding a
surviving non-calendar copy.  On a `pathInArchive` failure the function
returns the zero task and the wrapped error, as the Go code does. -/
def dedupLoop (archiveRoot : String) : List String → DeDupTask → List String → DeDupTask × Option String
  | [], task, _ => (task, none)
  | f :: rest, task, seen =>
    match pathInArchive archiveRoot f with
    | .error e => ({}, some ("failed to find path in directory: " ++ e))
    | .ok inArchive =>
      if isCalendarStoredFile inArchive then
        if task.ToKeep = "" then
          dedupLoop archiveRoot rest { task with ToKeep := f } seen
        else
          dedupLoop archiveRoot rest { task with DeleteFiles := task.DeleteFiles ++ [f] } seen
      else
        let dir := filepathDir inArchive
        if seen.contains dir then
          dedupLoop archiveRoot rest { task with DeleteFiles := task.DeleteFiles ++ [f] } seen
        else
          dedupLoop archiveRoot rest { task with ReCreateLinks := task.ReCreateLinks ++ [f] } (dir :: seen)

/-- `DeDuplicate` from the dedup source: sort the group, run the classification
loop, and fail with the zero task when no calendar-stored file was found. -/
def DeDuplicate (archiveRoot : String) (duplicateFiles : List String) : DeDupTask × Option String :=
  match dedupLoop archiveRoot (sortStrings duplicateFiles) {} [] with
  | (_, some e) => ({}, some e)
  | (task, none) =>
    if task.ToKeep = "" then ({}, some ("there is no file in calendar directory"))
    else (task, none)

/-- Whether `f` classifies as calendar-stored relative to `archiveRoot`
(i.e. `pathInArchive` succeeds and the relative path matches the calendar
pattern). -/
def calStored (archiveRoot f : String) : Bool :=
  match pathInArchive archiveRoot f with
  | .ok rel => isCalendarStoredFile rel
  | .error _ => false

/-- The containing directory of `f`'s archive-relative path (the grouping key
of the non-calendar branch of `DeDuplicate`). -/
def dirOf (archiveRoot f : String) : String :=
  match pathInArchive archiveRoot f with
  | .ok rel => filepathDir rel
  | .error _ => ""

/-- Whether `pathInArchive` succeeds on `f`. -/
def inArchiveOk (archiveRoot f : String) : Bool :=
  match pathInArchive archiveRoot f with
  | .ok _ => true
  | .error _ => false

/-! ## Decimal and hex formatting (Go `fmt` verbs used by `Sort`) -/

/-- The ASCII digit for `d < 10`. -/
def goDigitChar : Nat → Char
  | 0 => '0' | 1 => '1' | 2 => '2' | 3 => '3' | 4 => '4'
  | 5 => '5' | 6 => '6' | 7 => '7' | 8 => '8' | _ => '9'

/-- Fuel-driven decimal writer (most significant digit first). -/
def natDecimalAux : Nat → Nat → List Char
  | 0, _ => []
  | fuel + 1, n =>
    if n < 10 then [goDigitChar n]
    else natDecimalAux fuel (n / 10) ++ [goDigitChar (n % 10)]

/-- The decimal digits of `n` (Go `%d` for a non-negative value). -/
def natDecimalChars (n : Nat) : List Char :=
  natDecimalAux (n + 1) n

/-- Go `%d`. -/
def goSprintfD (n : Nat) : String :=
  ⟨natDecimalChars n⟩

/-- Left-pad with `'0'` to width `w` (Go zero-padded width verb). -/
def padZero (w : Nat) (s : List Char) : List Char :=
  List.replicate (w - s.length) '0' ++ s

/-- Go `%02d`. -/
def goSprintf02d (n : Nat) : String :=
  ⟨padZero 2 (natDecimalChars n)⟩

/-- A capture timestamp's calendar fields (the part of Go `time.Time` that
`Sort` consumes). -/
structure Date where
  year : Nat
  month : Nat
  day : Nat
  hour : Nat
  minute : Nat
  second : Nat
deriving DecidableEq, Repr

/-- Go `date.Format "20060102_150405"`: zero-padded four-digit year, then
two-digit month, day, an underscore, and two-digit hour, minute, second. -/
def formatDate (d : Date) : String :=
  ⟨padZero 4 (natDecimalChars d.year) ++ padZero 2 (natDecimalChars d.month) ++
    padZero 2 (natDecimalChars d.day) ++ '_' ::
    (padZero 2 (natDecimalChars d.hour) ++ padZero 2 (natDecimalChars d.minute) ++
      padZero 2 (natDecimalChars d.second))⟩

/-- Lowercase hex digit for `d < 16`. -/
def hexDigitChar : Nat → Char
  | 0 => '0' | 1 => '1' | 2 => '2' | 3 => '3' | 4 => '4'
  | 5 => '5' | 6 => '6' | 7 => '7' | 8 => '8' | 9 => '9'
  | 10 => 'a' | 11 => 'b' | 12 => 'c' | 13 => 'd' | 14 => 'e' | _ => 'f'

/-- Go `fmt.Sprintf "%x"` of a byte slice: two lowercase hex digits per byte. -/
def hexChars (bytes : List Nat) : List Char :=
  bytes.flatMap (fun b => [hexDigitChar (b / 16), hexDigitChar (b % 16)])

/-- The first eight characters of the hex digest (`fmt.Sprintf("%x", sum)[0:8]`). -/
def hexTake8 (bytes : List Nat) : String :=
  ⟨(hexChars bytes).take 8⟩

/-! ## The filesystem port (`pkg/archive/file_system.go`) with an event trace -/

/-- Outcome of the injected `os.Remove`: success, a not-exist error (which
`EnsureAbsent` swallows), or any other error. -/
inductive FsErr
  | notExist
  | other (msg : String)
deriving DecidableEq, Repr

/-- The injected file-system primitives of the `FileSystem` struct (remove,
hard-link, recursive mkdir), modelled as oracles that may fail. -/
structure FileSystem where
  fd : String → Option FsErr
  linker : String → String → Option String
  mkdir : String → Option String

/-- A filesystem mutation attempted by the engine, recorded in order. -/
inductive FsEvent
  | remove (p : String)
  | mkdirAll (p : String)
  | link (target p : String)
  | copy (src dst : String)
  | rename (src dst : String)
deriving DecidableEq, Repr

/-- `FileSystem.EnsureAbsent`: remove the file; a not-exist failure is not an
error. -/
def EnsureAbsent (fs : FileSystem) (name : String) : Option String × List FsEvent :=
  match fs.fd name with
  | some FsErr.notExist => (none, [FsEvent.remove name])
  | some (FsErr.other m) =>
    (some ("failed to remove existing file before creating link: " ++ m), [FsEvent.remove name])
  | none => (none, [FsEvent.remove name])

/-- `FileSystem.EnsureDirectory`: recursive directory creation. -/
def EnsureDirectory (fs : FileSystem) (name : String) : Option String × List FsEvent :=
  (fs.mkdir name, [FsEvent.mkdirAll name])

/-- `FileSystem.CreateLinks`: for each path in order, ensure it is absent,
ensure its parent directory exists, then hard-link it to `target`; the first
failure aborts. -/
def CreateLinks (fs : FileSystem) : List String → String → Option String × List FsEvent
  | [], _ => (none, [])
  | p :: rest, target =>
    match EnsureAbsent fs p with
    | (some e, tr) => (some ("cannot ensure file is not currently absent: " ++ e), tr)
    | (none, tr1) =>
      match EnsureDirectory fs (filepathDir p) with
      | (some e, tr2) => (some ("can not create directory for link: " ++ e), tr1 ++ tr2)
      | (none, tr2) =>
        match fs.linker target p with
        | some e =>
          (some ("can not hard link to all archive: " ++ e), tr1 ++ tr2 ++ [FsEvent.link target p])
        | none =>
          match CreateLinks fs rest target with
          | (r, tr3) => (r, tr1 ++ tr2 ++ [FsEvent.link target p] ++ tr3)

/-- The deletion loop of `DeduplicateAll`: `EnsureAbsent` on every file, first
failure aborts. -/
def deleteAll (fs : FileSystem) : List String → Option String × List FsEvent
  | [] => (none, [])
  | p :: rest =>
    match EnsureAbsent fs p with
    | (some e, tr) => (some ("failed to delete file: " ++ e), tr)
    | (none, tr) =>
      match deleteAll fs rest with
      | (r, tr2) => (r, tr ++ tr2)

/-- Execution of one `DeDupTask` inside `DeduplicateAll`: recreate the links to
`ToKeep`, then delete the redundant files. -/
def runTask (fs : FileSystem) (task : DeDupTask) : Option String × List FsEvent :=
  match CreateLinks fs task.ReCreateLinks task.ToKeep with
  | (some e, tr) => (some ("failed to create links to: " ++ e), tr)
  | (none, tr1) =>
    match deleteAll fs task.DeleteFiles with
    | (r, tr2) => (r, tr1 ++ tr2)

/-- `DeduplicateAll`: plan and execute each duplicate group in order; the first
error from planning, linking or deleting aborts the whole run. -/
def DeduplicateAll (archiveRoot : String) (duplicates : List (List String)) (creator : FileSystem) :
    Option String × List FsEvent :=
  match duplicates with
  | [] => (none, [])
  | g :: rest =>
    match DeDuplicate archiveRoot g with
    | (_, some e) => (some ("failed to compute deduplicateTask: " ++ e), [])
    | (task, none) =>
      match runTask creator task with
      | (some e, tr) => (some e, tr)
      | (none, tr) =>
        match DeduplicateAll archiveRoot rest creator with
        | (r, tr2) => (r, tr ++ tr2)

/-! ## The placement algorithm (`Algorithm.Sort`) -/

/-- The oracle environment of `Algorithm`: media detection, capture-date
extraction, the copy-and-digest primitive (returning the digest bytes),
`os.Rename`, and the injected `FileSystem`. -/
structure SortEnv where
  isMedia : String → Except String Bool
  extractor : String → Except String Date
  copier : String → String → Except String (List Nat)
  rename : String → String → Option String
  fileSystem : FileSystem

/-- `Algorithm.originArchiveFileName`: the source file's directory relative to
the source root, re-rooted below `archiveRoot/origin` with the canonical file
name. -/
def originArchiveFileName (archiveDir sourceDir fname targetFileName : String) :
    Except String String :=
  match filepathRelChars sourceDir.data fname.data with
  | none => .error ("failed to compute relative path in source")
  | some pathInSrc =>
    .ok (pathJoin (pathJoin archiveDir ("origin")) (pathJoin (filepathDir ⟨pathInSrc⟩) targetFileName))

/-- `Algorithm.Sort`: media check, capture date, target directory
`archiveDir/%d/%02d`, single-pass copy-and-digest to a temporary file, rename
to the canonical `<stamp>_<hex8><ext>` name, then hard links into the `all`
and `origin` index trees.  Returns the Go result pair together with the trace
of attempted filesystem mutations. -/
def AlgorithmSort (env : SortEnv) (archiveDir sourceDir fname : String) :
    (String × Option String) × List FsEvent :=
  match env.isMedia fname with
  | .error e => (("", some ("could not determine media type: " ++ e)), [])
  | .ok false => (("", some ("given file is not a media file")), [])
  | .ok true =>
    match env.extractor fname with
    | .error e => (("", some ("could not determine creation date of media file: " ++ e)), [])
    | .ok date =>
      let targetDir := pathJoin archiveDir (goSprintfD date.year ++ "/" ++ goSprintf02d date.month)
      match EnsureDirectory env.fileSystem targetDir with
      | (some e, tr) => (("", some ("could not create target dir: " ++ e)), tr)
      | (none, tr0) =>
        let tmpFile := pathJoin targetDir ("exifsorter.tmp")
        match env.copier fname tmpFile with
        | .error e =>
          ((tmpFile, some ("could not copy file and compute checksum: " ++ e)),
            tr0 ++ [FsEvent.copy fname tmpFile])
        | .ok sum =>
          let targetFileName := formatDate date ++ "_" ++ hexTake8 sum ++ pathExt fname
          let targetFilePath := pathJoin targetDir targetFileName
          match env.rename tmpFile targetFilePath with
          | some e =>
            ((tmpFile, some ("could not mv temporary file to target name: " ++ e)),
              tr0 ++ [FsEvent.copy fname tmpFile, FsEvent.rename tmpFile targetFilePath])
          | none =>
            let allArchiveName := pathJoin (pathJoin archiveDir ("all")) targetFileName
            match originArchiveFileName archiveDir sourceDir fname targetFileName with
            | .error e =>
              ((targetFilePath, some ("failed to determine relative path: " ++ e)),
                tr0 ++ [FsEvent.copy fname tmpFile, FsEvent.rename tmpFile targetFilePath])
            | .ok originArchiveName =>
              match CreateLinks env.fileSystem [allArchiveName, originArchiveName] targetFilePath with
              | (r, tr1) =>
                ((targetFilePath, r),
                  tr0 ++ [FsEvent.copy fname tmpFile, FsEvent.rename tmpFile targetFilePath] ++ tr1)

/-- The error filter of the `sort` command driver (`cmd/sort.go`): an error is
reported unless it is the sentinel "not a media file" condition. -/
def sortCmdReportsError (err : Option String) : Bool :=
  match err with
  | none => false
  | some e => e != "given file is not a media file"

/-! ## Spec-side plan of `DeduplicateAll` (for the refinement claims) -/

/-- The per-group mutation plan described by the specification: every
`ReCreateLinks` entry is recreated with unlink-then-link semantics (remove,
ensure the parent directory, hard-link to `ToKeep`), and only afterwards every
`DeleteFiles` entry is unlinked. -/
def plannedGroupEvents (task : DeDupTask) : List FsEvent :=
  task.ReCreateLinks.flatMap
    (fun p => [FsEvent.remove p, FsEvent.mkdirAll (filepathDir p), FsEvent.link task.ToKeep p]) ++
    task.DeleteFiles.map FsEvent.remove

/-- An environment in which every filesystem primitive succeeds, except that
removal may report that the file does not exist (absence is not an error). -/
def fsAllOk (fs : FileSystem) : Prop :=
  (∀ p m, fs.fd p ≠ some (FsErr.other m)) ∧ (∀ p, fs.mkdir p = none) ∧
    (∀ t p, fs.linker t p = none)

/-! ## Helper lemmas: splitting and joining on the separator -/

theorem splitChar_ne_nil (l : List Char) : splitChar l ≠ [] := by
  cases l with
  | nil => simp [splitChar]
  | cons c cs =>
    simp only [splitChar]
    split
    · simp
    · split <;> simp

theorem splitChar_cons_ne (c : Char) (cs : List Char) (hc : ¬ c = '/') {h : List Char}
    {t : List (List Char)} (hs : splitChar cs = h :: t) :
    splitChar (c :: cs) = (c :: h) :: t := by
  simp only [splitChar, if_neg hc, hs]

theorem splitChar_append (a b : List Char) :
    splitChar (a ++ '/' :: b) = splitChar a ++ splitChar b := by
  induction a with
  | nil => simp [splitChar]
  | cons c cs ih =>
    by_cases hc : c = '/'
    · subst hc
      have e1 : splitChar ('/' :: (cs ++ '/' :: b)) = [] :: splitChar (cs ++ '/' :: b) := by
        simp [splitChar]
      have e2 : splitChar ('/' :: cs) = [] :: splitChar cs := by simp [splitChar]
      rw [List.cons_append, e1, e2, ih]
      rfl
    · obtain ⟨h, t, hs⟩ : ∃ h t, splitChar cs = h :: t := by
        cases hsc : splitChar cs with
        | nil => exact absurd hsc (splitChar_ne_nil cs)
        | cons x xs => exact ⟨x, xs, rfl⟩
      have hs2 : splitChar (cs ++ '/' :: b) = h :: (t ++ splitChar b) := by
        rw [ih, hs]; rfl
      rw [List.cons_append, splitChar_cons_ne c _ hc hs2, splitChar_cons_ne c cs hc hs]
      rfl

theorem splitChar_no_slash (l : List Char) (h : '/' ∉ l) : splitChar l = [l] := by
  induction l with
  | nil => rfl
  | cons c cs ih =>
    have hc : ¬ c = '/' := fun e => h (by rw [e]; exact List.mem_cons_self _ _)
    have hcs : splitChar cs = [cs] := ih (fun m => h (List.mem_cons_of_mem _ m))
    rw [splitChar_cons_ne c cs hc hcs]

theorem joinSlash_splitChar (l : List Char) : joinSlash (splitChar l) = l := by
  induction l with
  | nil => rfl
  | cons c cs ih =>
    obtain ⟨h, t, hs⟩ : ∃ h t, splitChar cs = h :: t := by
      cases hsc : splitChar cs with
      | nil => exact absurd hsc (splitChar_ne_nil cs)
      | cons x xs => exact ⟨x, xs, rfl⟩
    by_cases hc : c = '/'
    · subst hc
      simp only [splitChar, if_pos rfl, hs]
      simp only [joinSlash]
      rw [← hs, ih]
      rfl
    · rw [splitChar_cons_ne c cs hc hs]
      cases t with
      | nil =>
        simp only [joinSlash]
        rw [hs] at ih
        simp only [joinSlash] at ih
        rw [ih]
      | cons u us =>
        simp only [joinSlash]
        rw [hs] at ih
        simp only [joinSlash] at ih
        rw [List.cons_append, ih]

theorem joinSlash_append (xs ys : List (List Char)) (hx : xs ≠ []) (hy : ys ≠ []) :
    joinSlash (xs ++ ys) = joinSlash xs ++ '/' :: joinSlash ys := by
  induction xs with
  | nil => exact absurd rfl hx
  | cons a as ih =>
    cases as with
    | nil =>
      cases ys with
      | nil => exact absurd rfl hy
      | cons b bs => simp [joinSlash]
    | cons a2 as2 =>
      have h1 : joinSlash ((a :: a2 :: as2) ++ ys) = a ++ '/' :: joinSlash ((a2 :: as2) ++ ys) := rfl
      have h2 : joinSlash (a :: a2 :: as2) = a ++ '/' :: joinSlash (a2 :: as2) := rfl
      rw [h1, ih (by simp), h2]
      simp [List.append_assoc]

theorem joinSlash_ne_nil (out : List (List Char)) (hne : out ≠ []) (h : ∀ x ∈ out, x ≠ []) :
    joinSlash out ≠ [] := by
  cases out with
  | nil => exact absurd rfl hne
  | cons a as =>
    cases as with
    | nil => exact h a (by simp)
    | cons b bs =>
      simp only [joinSlash]
      intro hcontra
      rcases List.append_eq_nil.mp hcontra with ⟨_, h2⟩
      cases h2

/-! ## Helper lemmas: sorting -/

theorem sortStrings_perm (l : List String) : (sortStrings l).Perm l :=
  @List.perm_insertionSort String (· ≤ ·) strLeDec l

theorem sortStrings_sorted (l : List String) : List.Sorted (· ≤ ·) (sortStrings l) :=
  @List.sorted_insertionSort String (· ≤ ·) strLeDec inferInstance inferInstance l

theorem sortStrings_eq_of_perm {l1 l2 : List String} (h : l1.Perm l2) :
    sortStrings l1 = sortStrings l2 :=
  List.eq_of_perm_of_sorted ((sortStrings_perm l1).trans (h.trans (sortStrings_perm l2).symm))
    (sortStrings_sorted l1) (sortStrings_sorted l2)

theorem sorted_find?_le {s : List String} {p : String → Bool} {a : String}
    (hs : List.Sorted (· ≤ ·) s) (hf : s.find? p = some a) :
    ∀ b ∈ s, p b = true → a ≤ b := by
  induction s with
  | nil => simp at hf
  | cons x rest ih =>
    rcases List.pairwise_cons.mp hs with ⟨hx, hrest⟩
    by_cases hp : p x
    · rw [List.find?_cons_of_pos _ hp] at hf
      injection hf with hax
      subst hax
      intro b hb _
      rcases List.mem_cons.mp hb with rfl | hb2
      · exact le_refl _
      · exact hx b hb2
    · rw [List.find?_cons_of_neg _ hp] at hf
      intro b hb hpb
      rcases List.mem_cons.mp hb with rfl | hb2
      · exact absurd hpb hp
      · exact ih hrest hf b hb2 hpb

theorem find?_eq_some_of_sorted_least {s : List String} {p : String → Bool} {f : String}
    (hs : List.Sorted (· ≤ ·) s) (hmem : f ∈ s) (hp : p f = true)
    (hleast : ∀ g ∈ s, p g = true → f ≤ g) : s.find? p = some f := by
  cases ha : s.find? p with
  | none =>
    exact absurd hp (List.find?_eq_none.mp ha f hmem)
  | some a =>
    have h1 : a ≤ f := sorted_find?_le hs ha f hmem hp
    have h2 : f ≤ a := hleast a (List.mem_of_find?_eq_some ha) (List.find?_some ha)
    rw [le_antisymm h1 h2]

/-! ## Helper lemmas: shape of `path.Clean` output -/

theorem cleanStep_mem (rooted : Bool) (acc : List (List Char)) (c : List Char) :
    ∀ x ∈ cleanStep rooted acc c,
      x ∈ acc ∨ x = ['.', '.'] ∨ (x = c ∧ ¬(c = [] ∨ c = ['.'])) := by
  intro x hx
  unfold cleanStep at hx
  by_cases h1 : c = [] ∨ c = ['.']
  · rw [if_pos h1] at hx
    exact Or.inl hx
  by_cases h2 : c = ['.', '.']
  · rw [if_neg h1, if_pos h2] at hx
    cases acc with
    | nil =>
      have hx2 : x ∈ (if rooted = true then ([] : List (List Char)) else [['.', '.']]) := hx
      cases rooted with
      | true => simp at hx2
      | false =>
        simp only [Bool.false_eq_true, if_false, List.mem_singleton] at hx2
        exact Or.inr (Or.inl hx2)
    | cons top rest =>
      have hx2 : x ∈ (if top = ['.', '.'] then c :: top :: rest else rest) := hx
      by_cases h3 : top = ['.', '.']
      · rw [if_pos h3] at hx2
        rcases List.mem_cons.mp hx2 with rfl | hmem
        · exact Or.inr (Or.inl h2)
        · exact Or.inl hmem
      · rw [if_neg h3] at hx2
        exact Or.inl (List.mem_cons_of_mem _ hx2)
  · rw [if_neg h1, if_neg h2] at hx
    rcases List.mem_cons.mp hx with rfl | hmem
    · exact Or.inr (Or.inr ⟨rfl, h1⟩)
    · exact Or.inl hmem

theorem cleanFold_ne (rooted : Bool) (cs : List (List Char)) :
    ∀ acc, (∀ x ∈ acc, x ≠ [] ∧ x ≠ ['.']) →
      ∀ x ∈ List.foldl (cleanStep rooted) acc cs, x ≠ [] ∧ x ≠ ['.'] := by
  induction cs with
  | nil => intro acc hacc; exact hacc
  | cons c rest ih =>
    intro acc hacc
    rw [List.foldl_cons]
    refine ih _ (fun x hx => ?_)
    rcases cleanStep_mem rooted acc c x hx with h | h | ⟨rfl, hn⟩
    · exact hacc x h
    · subst h
      exact ⟨by simp, by simp⟩
    · exact ⟨fun e => hn (Or.inl e), fun e => hn (Or.inr e)⟩

theorem cleanComps_ne (rooted : Bool) (cs : List (List Char)) :
    ∀ x ∈ cleanComps rooted cs, x ≠ [] ∧ x ≠ ['.'] := by
  intro x hx
  rw [cleanComps, List.mem_reverse] at hx
  exact cleanFold_ne rooted cs [] (by simp) x hx

theorem pathCleanChars_rooted (p : List Char) (hp : p ≠ []) (hr : p.head? = some '/') :
    pathCleanChars p = '/' :: joinSlash (cleanComps true (splitChar p)) := by
  simp [pathCleanChars, hp, hr]

theorem pathCleanChars_unrooted (p : List Char) (hp : p ≠ []) (hr : ¬ p.head? = some '/') :
    pathCleanChars p =
      if cleanComps false (splitChar p) = [] then ['.']
      else joinSlash (cleanComps false (splitChar p)) := by
  simp [pathCleanChars, hp, hr]

theorem pathCleanChars_ne_nil (p : List Char) : pathCleanChars p ≠ [] := by
  by_cases hp : p = []
  · subst hp
    simp [pathCleanChars]
  · by_cases hr : p.head? = some '/'
    · rw [pathCleanChars_rooted p hp hr]
      simp
    · rw [pathCleanChars_unrooted p hp hr]
      by_cases ho : cleanComps false (splitChar p) = []
      · rw [if_pos ho]
        simp
      · rw [if_neg ho]
        exact joinSlash_ne_nil _ ho (fun x hx => (cleanComps_ne false _ x hx).1)

theorem joinSlash_dd (rest : List (List Char)) :
    ∃ t, joinSlash (['.', '.'] :: rest) = '.' :: '.' :: t := by
  cases rest with
  | nil => exact ⟨[], rfl⟩
  | cons u us => exact ⟨'/' :: joinSlash (u :: us), rfl⟩

theorem dd_isPrefixOf (t : List Char) :
    (['.', '.'] : List Char).isPrefixOf ('.' :: '.' :: t) = true := by
  simp [List.isPrefixOf]

theorem stripCommon_nil_right (as : List (List Char)) : stripCommon as [] = (as, []) := by
  cases as <;> rfl


/-! ## Helper lemmas: the empty string never classifies as calendar-stored -/

theorem stripCommon_cons_eq {a b : List Char} (as bs : List (List Char)) (h : a = b) :
    stripCommon (a :: as) (b :: bs) = stripCommon as bs := by
  simp [stripCommon, h]

theorem stripCommon_cons_ne {a b : List Char} (as bs : List (List Char)) (h : ¬ a = b) :
    stripCommon (a :: as) (b :: bs) = (a :: as, b :: bs) := by
  simp [stripCommon, h]

theorem relChars_to_empty (base : List Char) {rel : List Char}
    (h : filepathRelChars base [] = some rel) :
    rel = ['.'] ∨ rel = [] ∨ ∃ t, rel = '.' :: '.' :: t := by
  rw [filepathRelChars] at h
  split at h
  · exact Or.inl (Option.some.inj h).symm
  · split at h
    · exact Or.inl (Option.some.inj h).symm
    · have h2 : (if (decide ((pathCleanChars base).head? = some '/') ≠ false)
            then (none : Option (List Char))
          else
            if (stripCommon (relSplit (pathCleanChars base)) [['.']]).1.head? = some ['.', '.']
              then none
            else if (stripCommon (relSplit (pathCleanChars base)) [['.']]).1 = [] then
              some (joinSlash (stripCommon (relSplit (pathCleanChars base)) [['.']]).2)
            else
              some (joinSlash
                (List.replicate (stripCommon (relSplit (pathCleanChars base)) [['.']]).1.length
                  ['.', '.'] ++ (stripCommon (relSplit (pathCleanChars base)) [['.']]).2))) =
          some rel := h
      clear h
      split at h2
      · cases h2
      · rename_i hsl
        have hslp : ¬ (pathCleanChars base).head? = some '/' := by
          intro hc
          exact hsl (by simp [hc])
        have hb : relSplit (pathCleanChars base) = splitChar (pathCleanChars base) := by
          rw [relSplit, if_neg (pathCleanChars_ne_nil base), if_neg]
          intro hroot
          rw [hroot] at hslp
          exact hslp rfl
        obtain ⟨h0, t0, hs0⟩ : ∃ h0 t0, splitChar (pathCleanChars base) = h0 :: t0 := by
          cases hsc : splitChar (pathCleanChars base) with
          | nil => exact absurd hsc (splitChar_ne_nil _)
          | cons x xs => exact ⟨x, xs, rfl⟩
        rw [hb, hs0] at h2
        by_cases hhd : h0 = ['.']
        · subst hhd
          rw [stripCommon_cons_eq t0 [] rfl, stripCommon_nil_right] at h2
          cases t0 with
          | nil =>
            have h3 : some ([] : List Char) = some rel := h2
            exact Or.inr (Or.inl (Option.some.inj h3).symm)
          | cons c t1 =>
            by_cases hdd : c = ['.', '.']
            · subst hdd
              cases h2
            · rw [if_neg (by simpa using hdd), if_neg (by simp)] at h2
              rw [show (c :: t1).length = t1.length + 1 from rfl, List.replicate_succ,
                List.append_nil] at h2
              obtain ⟨t, ht⟩ := joinSlash_dd (List.replicate t1.length ['.', '.'])
              rw [ht] at h2
              exact Or.inr (Or.inr ⟨t, (Option.some.inj h2).symm⟩)
        · rw [stripCommon_cons_ne t0 [] hhd] at h2
          by_cases hdd : h0 = ['.', '.']
          · subst hdd
            cases h2
          · rw [if_neg (by simpa using hdd), if_neg (by simp)] at h2
            rw [show (h0 :: t0).length = t0.length + 1 from rfl, List.replicate_succ] at h2
            obtain ⟨t, ht⟩ := joinSlash_dd (List.replicate t0.length ['.', '.'] ++ [['.']])
            rw [List.cons_append, ht] at h2
            exact Or.inr (Or.inr ⟨t, (Option.some.inj h2).symm⟩)

theorem calStored_empty (root : String) : calStored root "" = false := by
  rcases hfr : filepathRelChars root.data (("" : String).data) with _ | rel
  · unfold calStored pathInArchive
    rw [hfr]
  · unfold calStored pathInArchive
    rw [hfr]
    rcases relChars_to_empty root.data hfr with rfl | rfl | ⟨t, rfl⟩
    · rfl
    · rfl
    · simp [dd_isPrefixOf]

theorem calStored_ne_empty {root f : String} (h : calStored root f = true) : f ≠ "" := by
  intro he
  rw [he, calStored_empty] at h
  cases h

/-! ## Helper lemmas: the classification loop of `DeDuplicate` -/

theorem calStored_of_ok {root x rel : String} (hpa : pathInArchive root x = .ok rel) :
    calStored root x = isCalendarStoredFile rel := by
  unfold calStored
  rw [hpa]

theorem dirOf_of_ok {root x rel : String} (hpa : pathInArchive root x = .ok rel) :
    dirOf root x = filepathDir rel := by
  unfold dirOf
  rw [hpa]

theorem dedupLoop_cons_ok (root x : String) (rest : List String) (task : DeDupTask)
    (seen : List String) {rel : String} (hpa : pathInArchive root x = .ok rel) :
    dedupLoop root (x :: rest) task seen =
      if calStored root x = true then
        (if task.ToKeep = "" then dedupLoop root rest { task with ToKeep := x } seen
         else dedupLoop root rest { task with DeleteFiles := task.DeleteFiles ++ [x] } seen)
      else
        (if dirOf root x ∈ seen then
          dedupLoop root rest { task with DeleteFiles := task.DeleteFiles ++ [x] } seen
         else dedupLoop root rest { task with ReCreateLinks := task.ReCreateLinks ++ [x] }
           (dirOf root x :: seen)) := by
  have hc : calStored root x = isCalendarStoredFile rel := calStored_of_ok hpa
  have hd : dirOf root x = filepathDir rel := dirOf_of_ok hpa
  simp only [dedupLoop, hpa, hc, hd]
  by_cases hm : filepathDir rel ∈ seen
  · rw [if_pos (List.elem_iff.mpr hm), if_pos hm]
  · rw [if_neg (fun hcontra => hm (List.elem_iff.mp hcontra)), if_neg hm]

theorem dedupLoop_cons_err (root x : String) (rest : List String) (task : DeDupTask)
    (seen : List String) {e : String} (hpa : pathInArchive root x = .error e) :
    dedupLoop root (x :: rest) task seen =
      ({}, some ("failed to find path in directory: " ++ e)) := by
  simp only [dedupLoop, hpa]

theorem dedupLoop_err (root : String) (s : List String) :
    ∀ task seen, (∃ f ∈ s, inArchiveOk root f = false) →
      ∃ e, dedupLoop root s task seen = ({}, some ("failed to find path in directory: " ++ e)) := by
  induction s with
  | nil =>
    intro task seen h
    rcases h with ⟨f, hf, _⟩
    cases hf
  | cons x rest ih =>
    intro task seen h
    rcases hpa : pathInArchive root x with e | rel
    · exact ⟨e, dedupLoop_cons_err root x rest task seen hpa⟩
    · have hok : inArchiveOk root x = true := by unfold inArchiveOk; rw [hpa]
      have h2 : ∃ f ∈ rest, inArchiveOk root f = false := by
        rcases h with ⟨f, hf, hbad⟩
        rcases List.mem_cons.mp hf with rfl | hf2
        · rw [hok] at hbad
          cases hbad
        · exact ⟨f, hf2, hbad⟩
      rw [dedupLoop_cons_ok root x rest task seen hpa]
      by_cases h3 : calStored root x = true
      · rw [if_pos h3]
        by_cases h4 : task.ToKeep = ""
        · rw [if_pos h4]
          exact ih _ _ h2
        · rw [if_neg h4]
          exact ih _ _ h2
      · rw [if_neg h3]
        by_cases h5 : dirOf root x ∈ seen
        · rw [if_pos h5]
          exact ih _ _ h2
        · rw [if_neg h5]
          exact ih _ _ h2

theorem dedupLoop_none_of_ok (root : String) (s : List String) :
    ∀ task seen, (∀ f ∈ s, inArchiveOk root f = true) →
      (dedupLoop root s task seen).2 = none := by
  induction s with
  | nil =>
    intro task seen _
    rfl
  | cons x rest ih =>
    intro task seen h
    have hx := h x (List.mem_cons_self x rest)
    rcases hpa : pathInArchive root x with e | rel
    · unfold inArchiveOk at hx
      rw [hpa] at hx
      cases hx
    · have h2 : ∀ f ∈ rest, inArchiveOk root f = true := fun f hf => h f (List.mem_cons_of_mem _ hf)
      rw [dedupLoop_cons_ok root x rest task seen hpa]
      by_cases h3 : calStored root x = true
      · rw [if_pos h3]
        by_cases h4 : task.ToKeep = ""
        · rw [if_pos h4]
          exact ih _ _ h2
        · rw [if_neg h4]
          exact ih _ _ h2
      · rw [if_neg h3]
        by_cases h5 : dirOf root x ∈ seen
        · rw [if_pos h5]
          exact ih _ _ h2
        · rw [if_neg h5]
          exact ih _ _ h2

theorem dedupLoop_ok_of_none (root : String) (s : List String) (task : DeDupTask)
    (seen : List String) (h : (dedupLoop root s task seen).2 = none) :
    ∀ f ∈ s, inArchiveOk root f = true := by
  intro f hf
  by_contra hbad
  have hbad2 : inArchiveOk root f = false := by
    cases hc : inArchiveOk root f
    · rfl
    · exact absurd hc hbad
  rcases dedupLoop_err root s task seen ⟨f, hf, hbad2⟩ with ⟨e, he⟩
  rw [he] at h
  cases h

theorem dedupLoop_toKeep_stay (root : String) (s : List String) :
    ∀ task seen, (∀ f ∈ s, inArchiveOk root f = true) → task.ToKeep ≠ "" →
      (dedupLoop root s task seen).1.ToKeep = task.ToKeep := by
  induction s with
  | nil =>
    intro task seen _ _
    rfl
  | cons x rest ih =>
    intro task seen h hk
    have hx := h x (List.mem_cons_self x rest)
    rcases hpa : pathInArchive root x with e | rel
    · unfold inArchiveOk at hx
      rw [hpa] at hx
      cases hx
    · have h2 : ∀ f ∈ rest, inArchiveOk root f = true := fun f hf => h f (List.mem_cons_of_mem _ hf)
      rw [dedupLoop_cons_ok root x rest task seen hpa]
      by_cases h3 : calStored root x = true
      · rw [if_pos h3, if_neg hk]
        exact ih _ _ h2 hk
      · rw [if_neg h3]
        by_cases h5 : dirOf root x ∈ seen
        · rw [if_pos h5]
          exact ih _ _ h2 hk
        · rw [if_neg h5]
          exact ih _ _ h2 hk

theorem dedupLoop_toKeep_find (root : String) (s : List String) :
    ∀ task seen, (∀ f ∈ s, inArchiveOk root f = true) → task.ToKeep = "" →
      (dedupLoop root s task seen).1.ToKeep =
        ((s.find? (fun g => calStored root g)).getD "") := by
  induction s with
  | nil =>
    intro task seen _ hk
    simpa using hk
  | cons x rest ih =>
    intro task seen h hk
    have hx := h x (List.mem_cons_self x rest)
    rcases hpa : pathInArchive root x with e | rel
    · unfold inArchiveOk at hx
      rw [hpa] at hx
      cases hx
    · have h2 : ∀ f ∈ rest, inArchiveOk root f = true := fun f hf => h f (List.mem_cons_of_mem _ hf)
      rw [dedupLoop_cons_ok root x rest task seen hpa]
      by_cases h3 : calStored root x = true
      · rw [if_pos h3, if_pos hk, List.find?_cons_of_pos _ h3]
        have hxne : x ≠ "" := calStored_ne_empty h3
        exact dedupLoop_toKeep_stay root rest _ seen h2 hxne
      · have h3f : ¬ ((fun g => calStored root g) x = true) := h3
        rw [if_neg h3, List.find?_cons_of_neg _ h3f]
        by_cases h5 : dirOf root x ∈ seen
        · rw [if_pos h5]
          exact ih _ _ h2 hk
        · rw [if_neg h5]
          exact ih _ _ h2 hk

theorem dedupLoop_delete_mono (root : String) (s : List String) :
    ∀ task seen, (∀ f ∈ s, inArchiveOk root f = true) →
      ∀ x ∈ task.DeleteFiles, x ∈ (dedupLoop root s task seen).1.DeleteFiles := by
  induction s with
  | nil =>
    intro task seen _ x hx
    exact hx
  | cons y rest ih =>
    intro task seen h x hx
    have hy := h y (List.mem_cons_self y rest)
    rcases hpa : pathInArchive root y with e | rel
    · unfold inArchiveOk at hy
      rw [hpa] at hy
      cases hy
    · have h2 : ∀ f ∈ rest, inArchiveOk root f = true := fun f hf => h f (List.mem_cons_of_mem _ hf)
      rw [dedupLoop_cons_ok root y rest task seen hpa]
      by_cases h3 : calStored root y = true
      · rw [if_pos h3]
        by_cases h4 : task.ToKeep = ""
        · rw [if_pos h4]
          exact ih _ _ h2 x hx
        · rw [if_neg h4]
          exact ih _ _ h2 x (List.mem_append_left _ hx)
      · rw [if_neg h3]
        by_cases h5 : dirOf root y ∈ seen
        · rw [if_pos h5]
          exact ih _ _ h2 x (List.mem_append_left _ hx)
        · rw [if_neg h5]
          exact ih _ _ h2 x hx

theorem dedupLoop_cal_delete (root : String) (s : List String) :
    ∀ task seen (f : String), (∀ g ∈ s, inArchiveOk root g = true) →
      calStored root f = true → f ∈ s →
      (task.ToKeep = "" → s.find? (fun g => calStored root g) ≠ some f) →
      f ∈ (dedupLoop root s task seen).1.DeleteFiles := by
  induction s with
  | nil =>
    intro task seen f _ _ hf _
    cases hf
  | cons x rest ih =>
    intro task seen f h hcal hf hfind
    have hx := h x (List.mem_cons_self x rest)
    rcases hpa : pathInArchive root x with e | rel
    · unfold inArchiveOk at hx
      rw [hpa] at hx
      cases hx
    · have h2 : ∀ g ∈ rest, inArchiveOk root g = true := fun g hg => h g (List.mem_cons_of_mem _ hg)
      rw [dedupLoop_cons_ok root x rest task seen hpa]
      by_cases h3 : calStored root x = true
      · rw [if_pos h3]
        by_cases h4 : task.ToKeep = ""
        · rw [if_pos h4]
          have hne : x ≠ f := by
            intro he
            exact hfind h4 (by rw [List.find?_cons_of_pos _ h3, he])
          have hf2 : f ∈ rest := by
            rcases List.mem_cons.mp hf with rfl | hf2
            · exact absurd rfl hne
            · exact hf2
          have hknew : ({ task with ToKeep := x } : DeDupTask).ToKeep ≠ "" :=
            calStored_ne_empty h3
          exact ih _ _ f h2 hcal hf2 (fun hcontra => absurd hcontra hknew)
        · rw [if_neg h4]
          rcases List.mem_cons.mp hf with rfl | hf2
          · exact dedupLoop_delete_mono root rest _ seen h2 f (List.mem_append_right _ (by simp))
          · exact ih _ _ f h2 hcal hf2 (fun hcontra =>
              absurd hcontra (show ¬ ({ task with DeleteFiles := task.DeleteFiles ++ [x] } : DeDupTask).ToKeep = "" from h4))
      · rw [if_neg h3]
        have hne : x ≠ f := by
          intro he
          rw [he, hcal] at h3
          exact h3 rfl
        have hf2 : f ∈ rest := by
          rcases List.mem_cons.mp hf with rfl | hf2
          · exact absurd rfl hne
          · exact hf2
        have hfind2 : ∀ (t2 : DeDupTask), t2.ToKeep = task.ToKeep →
            (t2.ToKeep = "" → rest.find? (fun g => calStored root g) ≠ some f) := by
          intro t2 ht2 hk0
          have : (x :: rest).find? (fun g => calStored root g) = rest.find? (fun g => calStored root g) :=
            List.find?_cons_of_neg _ h3
          rw [← this]
          exact hfind (by rw [← ht2]; exact hk0)
        by_cases h5 : dirOf root x ∈ seen
        · rw [if_pos h5]
          exact ih _ _ f h2 hcal hf2 (hfind2 _ rfl)
        · rw [if_neg h5]
          exact ih _ _ f h2 hcal hf2 (hfind2 _ rfl)

theorem dedupLoop_dir_delete (root : String) (s : List String) :
    ∀ task seen (f : String), (∀ g ∈ s, inArchiveOk root g = true) →
      calStored root f = false → f ∈ s →
      (dirOf root f ∈ seen ∨
        s.find? (fun g => !calStored root g && (dirOf root g == dirOf root f)) ≠ some f) →
      f ∈ (dedupLoop root s task seen).1.DeleteFiles := by
  induction s with
  | nil =>
    intro task seen f _ _ hf _
    cases hf
  | cons x rest ih =>
    intro task seen f h hncal hf hcond
    have hx := h x (List.mem_cons_self x rest)
    rcases hpa : pathInArchive root x with e | rel
    · unfold inArchiveOk at hx
      rw [hpa] at hx
      cases hx
    · have h2 : ∀ g ∈ rest, inArchiveOk root g = true := fun g hg => h g (List.mem_cons_of_mem _ hg)
      rw [dedupLoop_cons_ok root x rest task seen hpa]
      by_cases h3 : calStored root x = true
      · -- x is calendar-stored: it cannot be f and the directory predicate skips it
        have hne : x ≠ f := by
          intro he
          rw [he, hncal] at h3
          cases h3
        have hf2 : f ∈ rest := by
          rcases List.mem_cons.mp hf with rfl | hf2
          · exact absurd rfl hne
          · exact hf2
        have hpx : ¬ ((fun g => !calStored root g && (dirOf root g == dirOf root f)) x = true) := by
          simp [h3]
        have hskip : (x :: rest).find? (fun g => !calStored root g && (dirOf root g == dirOf root f)) =
            rest.find? (fun g => !calStored root g && (dirOf root g == dirOf root f)) :=
          List.find?_cons_of_neg rest hpx
        have hcond2 : dirOf root f ∈ seen ∨
            rest.find? (fun g => !calStored root g && (dirOf root g == dirOf root f)) ≠ some f := by
          rcases hcond with hl | hr
          · exact Or.inl hl
          · rw [hskip] at hr
            exact Or.inr hr
        rw [if_pos h3]
        by_cases h4 : task.ToKeep = ""
        · rw [if_pos h4]
          exact ih _ _ f h2 hncal hf2 hcond2
        · rw [if_neg h4]
          exact ih _ _ f h2 hncal hf2 hcond2
      · rw [if_neg h3]
        by_cases h5 : dirOf root x ∈ seen
        · -- the directory of x is already seen: x is deleted if it is f
          rw [if_pos h5]
          rcases List.mem_cons.mp hf with rfl | hf2
          · exact dedupLoop_delete_mono root rest _ seen h2 f (List.mem_append_right _ (by simp))
          · -- f in rest: condition transfers
            have hcond2 : dirOf root f ∈ seen ∨
                rest.find? (fun g => !calStored root g && (dirOf root g == dirOf root f)) ≠ some f := by
              rcases hcond with hl | hr
              · exact Or.inl hl
              · by_cases hpx : (!calStored root x && (dirOf root x == dirOf root f)) = true
                · -- x satisfies the predicate: then dir x = dir f ∈ seen
                  have hdir : dirOf root x = dirOf root f := by
                    have hh : (!calStored root x) = true ∧ (dirOf root x == dirOf root f) = true := by
                      simpa using hpx
                    exact beq_iff_eq.mp hh.2
                  exact Or.inl (hdir ▸ h5)
                · have hskip : (x :: rest).find?
                      (fun g => !calStored root g && (dirOf root g == dirOf root f)) =
                      rest.find? (fun g => !calStored root g && (dirOf root g == dirOf root f)) :=
                    List.find?_cons_of_neg rest hpx
                  rw [hskip] at hr
                  exact Or.inr hr
            exact ih _ _ f h2 hncal hf2 hcond2
        · -- x survives into ReCreateLinks, its directory becomes seen
          rw [if_neg h5]
          rcases List.mem_cons.mp hf with rfl | hf2
          · -- f = x : but then the find? on x :: rest returns x itself and the dir is fresh:
            -- the hypothesis rules this out
            have hpx : (!calStored root f && (dirOf root f == dirOf root f)) = true := by
              simp [hncal]
            rcases hcond with hl | hr
            · exact absurd hl h5
            · exact absurd (List.find?_cons_of_pos rest hpx) hr
          · have hcond2 : dirOf root f ∈ (dirOf root x :: seen) ∨
                rest.find? (fun g => !calStored root g && (dirOf root g == dirOf root f)) ≠ some f := by
              rcases hcond with hl | hr
              · exact Or.inl (List.mem_cons_of_mem _ hl)
              · by_cases hpx : (!calStored root x && (dirOf root x == dirOf root f)) = true
                · have hdir : dirOf root x = dirOf root f := by
                    have hh : (!calStored root x) = true ∧ (dirOf root x == dirOf root f) = true := by
                      simpa using hpx
                    exact beq_iff_eq.mp hh.2
                  exact Or.inl (by rw [← hdir]; exact List.mem_cons_self _ _)
                · have hskip : (x :: rest).find?
                      (fun g => !calStored root g && (dirOf root g == dirOf root f)) =
                      rest.find? (fun g => !calStored root g && (dirOf root g == dirOf root f)) :=
                    List.find?_cons_of_neg rest hpx
                  rw [hskip] at hr
                  exact Or.inr hr
            exact ih _ _ f h2 hncal hf2 hcond2

theorem dedupLoop_rcl_iff (root : String) (s : List String) :
    ∀ task seen (f : String), (∀ g ∈ s, inArchiveOk root g = true) →
      (f ∈ (dedupLoop root s task seen).1.ReCreateLinks ↔
        f ∈ task.ReCreateLinks ∨
        (dirOf root f ∉ seen ∧
          s.find? (fun g => !calStored root g && (dirOf root g == dirOf root f)) = some f)) := by
  induction s with
  | nil =>
    intro task seen f _
    simp [dedupLoop]
  | cons x rest ih =>
    intro task seen f h
    have hx := h x (List.mem_cons_self x rest)
    rcases hpa : pathInArchive root x with e | rel
    · unfold inArchiveOk at hx
      rw [hpa] at hx
      cases hx
    · have h2 : ∀ g ∈ rest, inArchiveOk root g = true := fun g hg => h g (List.mem_cons_of_mem _ hg)
      rw [dedupLoop_cons_ok root x rest task seen hpa]
      by_cases h3 : calStored root x = true
      · -- calendar-stored head: ReCreateLinks untouched, predicate skips x
        have hpx : ¬ ((fun g => !calStored root g && (dirOf root g == dirOf root f)) x = true) := by
          simp [h3]
        have hskip : (x :: rest).find? (fun g => !calStored root g && (dirOf root g == dirOf root f)) =
            rest.find? (fun g => !calStored root g && (dirOf root g == dirOf root f)) :=
          List.find?_cons_of_neg rest hpx
        rw [if_pos h3, hskip]
        by_cases h4 : task.ToKeep = ""
        · rw [if_pos h4]
          exact ih _ _ f h2
        · rw [if_neg h4]
          exact ih _ _ f h2
      · rw [if_neg h3]
        by_cases h5 : dirOf root x ∈ seen
        · -- directory already seen: head deleted, ReCreateLinks untouched
          rw [if_pos h5]
          rw [ih _ _ f h2]
          by_cases hdir : dirOf root x = dirOf root f
          · -- the head matches the predicate, but its directory is in seen on both sides
            have hds : dirOf root f ∈ seen := hdir ▸ h5
            constructor
            · intro hcase
              rcases hcase with hl | ⟨hns, _⟩
              · exact Or.inl hl
              · exact absurd hds hns
            · intro hcase
              rcases hcase with hl | ⟨hns, _⟩
              · exact Or.inl hl
              · exact absurd hds hns
          · have hpx : ¬ ((fun g => !calStored root g && (dirOf root g == dirOf root f)) x = true) := by
              simp [hdir]
            have hskip : (x :: rest).find?
                (fun g => !calStored root g && (dirOf root g == dirOf root f)) =
                rest.find? (fun g => !calStored root g && (dirOf root g == dirOf root f)) :=
              List.find?_cons_of_neg rest hpx
            rw [hskip]
        · -- fresh directory: head joins ReCreateLinks, its directory becomes seen
          rw [if_neg h5]
          rw [ih _ _ f h2]
          by_cases hdir : dirOf root f = dirOf root x
          · -- head satisfies the predicate for f
            have hpx : ((fun g => !calStored root g && (dirOf root g == dirOf root f)) x = true) := by
              simp [h3, hdir]
            have hfind : (x :: rest).find?
                (fun g => !calStored root g && (dirOf root g == dirOf root f)) = some x :=
              List.find?_cons_of_pos rest hpx
            rw [hfind]
            have hfs : dirOf root f ∉ seen := by
              rw [hdir]
              exact h5
            have hfs2 : ¬ (dirOf root f ∉ (dirOf root x :: seen)) := by
              intro hns
              exact hns (by rw [hdir]; exact List.mem_cons_self _ _)
            constructor
            · intro hcase
              rcases hcase with hl | ⟨hns, _⟩
              · rcases List.mem_append.mp hl with hl2 | hl3
                · exact Or.inl hl2
                · exact Or.inr ⟨hfs, by rw [(List.mem_singleton.mp hl3)]⟩
              · exact absurd hns hfs2
            · intro hcase
              rcases hcase with hl | ⟨_, hx2⟩
              · exact Or.inl (List.mem_append_left _ hl)
              · have : x = f := Option.some.inj hx2
                exact Or.inl (List.mem_append_right _ (by rw [this]; exact List.mem_singleton_self f))
          · -- head does not match the predicate for f
            have hne : f ≠ x := by
              intro he
              exact hdir (by rw [he])
            have hpx : ¬ ((fun g => !calStored root g && (dirOf root g == dirOf root f)) x = true) := by
              simp
              intro _
              intro hcontra
              exact absurd hcontra.symm hdir
            have hskip : (x :: rest).find?
                (fun g => !calStored root g && (dirOf root g == dirOf root f)) =
                rest.find? (fun g => !calStored root g && (dirOf root g == dirOf root f)) :=
              List.find?_cons_of_neg rest hpx
            rw [hskip]
            have hmem : f ∈ task.ReCreateLinks ++ [x] ↔ f ∈ task.ReCreateLinks := by
              rw [List.mem_append]
              constructor
              · intro hcase
                rcases hcase with hl | hl
                · exact hl
                · exact absurd (List.mem_singleton.mp hl) hne
              · exact Or.inl
            have hseen : (dirOf root f ∉ (dirOf root x :: seen)) ↔ (dirOf root f ∉ seen) := by
              constructor
              · intro hns hmem2
                exact hns (List.mem_cons_of_mem _ hmem2)
              · intro hns hmem2
                rcases List.mem_cons.mp hmem2 with he | hm2
                · exact hdir he
                · exact hns hm2
            rw [hmem, hseen]

/-! ## Claims about the deduplication engine -/

/-- Claim C1: for a duplicate group whose paths all lie within the archive root
and that contains at least one calendar-stored path, `DeDuplicate` succeeds,
`ToKeep` is the lexicographically smallest calendar-stored path of the group,
and every other calendar-stored path of the group is in `DeleteFiles`. -/
theorem c1_dedup_selects_min_calendar (root : String) (files : List String)
    (hok : ∀ f ∈ files, inArchiveOk root f = true)
    (hcal : ∃ f ∈ files, calStored root f = true) :
    ∃ task, DeDuplicate root files = (task, none) ∧
      task.ToKeep ∈ files ∧ calStored root task.ToKeep = true ∧
      (∀ f ∈ files, calStored root f = true → task.ToKeep ≤ f) ∧
      (∀ f ∈ files, calStored root f = true → f ≠ task.ToKeep → f ∈ task.DeleteFiles) := by
  have hperm := sortStrings_perm files
  have hokS : ∀ f ∈ sortStrings files, inArchiveOk root f = true :=
    fun f hf => hok f (hperm.mem_iff.mp hf)
  have hcalS : ∃ f ∈ sortStrings files, (fun g => calStored root g) f = true := by
    rcases hcal with ⟨f, hf, hc⟩
    exact ⟨f, hperm.mem_iff.mpr hf, hc⟩
  have hsome : ((sortStrings files).find? (fun g => calStored root g)).isSome = true :=
    List.find?_isSome.mpr hcalS
  rcases hfind : (sortStrings files).find? (fun g => calStored root g) with _ | k
  · rw [hfind] at hsome
    cases hsome
  · have hkcal : calStored root k = true := List.find?_some hfind
    have hkmemS : k ∈ sortStrings files := List.mem_of_find?_eq_some hfind
    have hkne : k ≠ "" := calStored_ne_empty hkcal
    rcases hl : dedupLoop root (sortStrings files) ({} : DeDupTask) [] with ⟨task0, err⟩
    have herr : err = none := by
      have h2 := dedupLoop_none_of_ok root (sortStrings files) {} [] hokS
      rw [hl] at h2
      exact h2
    subst herr
    have hkeep : task0.ToKeep = k := by
      have h2 := dedupLoop_toKeep_find root (sortStrings files) {} [] hokS rfl
      rw [hl, hfind] at h2
      exact h2
    have hD : DeDuplicate root files = (task0, none) := by
      unfold DeDuplicate
      rw [hl]
      show (if task0.ToKeep = "" then (({} : DeDupTask),
          some ("there is no file in calendar directory")) else (task0, none)) = (task0, none)
      rw [if_neg (by rw [hkeep]; exact hkne)]
    refine ⟨task0, hD, ?_, ?_, ?_, ?_⟩
    · rw [hkeep]
      exact hperm.mem_iff.mp hkmemS
    · rw [hkeep]
      exact hkcal
    · intro f hf hc
      rw [hkeep]
      exact sorted_find?_le (sortStrings_sorted files) hfind f (hperm.mem_iff.mpr hf) hc
    · intro f hf hc hne
      have hyp : (({} : DeDupTask).ToKeep = "" →
          (sortStrings files).find? (fun g => calStored root g) ≠ some f) := by
        intro _
        rw [hfind]
        intro hcontra
        exact hne (by rw [hkeep, ← Option.some.inj hcontra])
      have hdel := dedupLoop_cal_delete root (sortStrings files) {} [] f hokS hc
        (hperm.mem_iff.mpr hf) hyp
      rw [hl] at hdel
      exact hdel

/-- Claim C3: for a duplicate group inside the archive root with no
calendar-stored path, `DeDuplicate` fails with the "no canonical copy" error
and produces the empty task. -/
theorem c3_dedup_errors_without_calendar (root : String) (files : List String)
    (hok : ∀ f ∈ files, inArchiveOk root f = true)
    (hnone : ∀ f ∈ files, calStored root f = false) :
    DeDuplicate root files =
      ({ ToKeep := "", ReCreateLinks := [], DeleteFiles := [] },
        some ("there is no file in calendar directory")) := by
  have hperm := sortStrings_perm files
  have hokS : ∀ f ∈ sortStrings files, inArchiveOk root f = true :=
    fun f hf => hok f (hperm.mem_iff.mp hf)
  have hfind : (sortStrings files).find? (fun g => calStored root g) = none :=
    List.find?_eq_none.mpr (fun x hx hxc => by
      rw [hnone x (hperm.mem_iff.mp hx)] at hxc
      cases hxc)
  rcases hl : dedupLoop root (sortStrings files) ({} : DeDupTask) [] with ⟨task0, err⟩
  have herr : err = none := by
    have h2 := dedupLoop_none_of_ok root (sortStrings files) {} [] hokS
    rw [hl] at h2
    exact h2
  subst herr
  have hkeep : task0.ToKeep = "" := by
    have h2 := dedupLoop_toKeep_find root (sortStrings files) {} [] hokS rfl
    rw [hl, hfind] at h2
    exact h2
  unfold DeDuplicate
  rw [hl]
  show (if task0.ToKeep = "" then (({} : DeDupTask),
      some ("there is no file in calendar directory")) else (task0, none)) =
    ({ ToKeep := "", ReCreateLinks := [], DeleteFiles := [] },
      some ("there is no file in calendar directory"))
  rw [if_pos hkeep]

/-- Claim C6: a duplicate group containing a path that fails the archive
containment check makes `DeDuplicate` return the containment error and the
empty task. -/
theorem c6_dedup_containment_error (root : String) (files : List String)
    (hbad : ∃ f ∈ files, inArchiveOk root f = false) :
    ∃ e, DeDuplicate root files =
      ({ ToKeep := "", ReCreateLinks := [], DeleteFiles := [] },
        some ("failed to find path in directory: " ++ e)) := by
  have hperm := sortStrings_perm files
  have hbadS : ∃ f ∈ sortStrings files, inArchiveOk root f = false := by
    rcases hbad with ⟨f, hf, hb⟩
    exact ⟨f, hperm.mem_iff.mpr hf, hb⟩
  rcases dedupLoop_err root (sortStrings files) ({} : DeDupTask) [] hbadS with ⟨e, he⟩
  refine ⟨e, ?_⟩
  unfold DeDuplicate
  rw [he]

/-- Claim C7: `DeDuplicate` is invariant under permutations of the input
group: the result (task and error alike) depends only on the set of paths. -/
theorem c7_dedup_perm_invariant (root : String) {files1 files2 : List String}
    (h : files1.Perm files2) :
    DeDuplicate root files1 = DeDuplicate root files2 := by
  unfold DeDuplicate
  rw [sortStrings_eq_of_perm h]

/-- Claim C9: the containment check is a textual prefix test for `".."` on the
archive-relative path, so a file directly inside the archive root whose name
begins with two dots is rejected as "outside of archive", and `DeDuplicate`
fails on any group containing it. -/
theorem c9_dotdot_name_rejected :
    ("Archive/..thumb.jpg" : String) = "Archive" ++ "/" ++ "..thumb.jpg" ∧
    pathInArchive ("Archive") ("Archive/..thumb.jpg") =
      .error ("path is outside of archive") ∧
    DeDuplicate ("Archive") ["Archive/2019/04/a.jpg", "Archive/..thumb.jpg"] =
      ({ ToKeep := "", ReCreateLinks := [], DeleteFiles := [] },
        some ("failed to find path in directory: path is outside of archive")) := by
  refine ⟨rfl, by rfl, by decide⟩

/-- Claim C2: on every group where `DeDuplicate` succeeds, each non-calendar
path is in `ReCreateLinks` exactly when it is the lexicographically least
group member of its directory, and every non-calendar path not in
`ReCreateLinks` is scheduled for deletion. -/
theorem c2_one_link_per_directory (root : String) (files : List String) (task : DeDupTask)
    (h : DeDuplicate root files = (task, none)) :
    ∀ f ∈ files, calStored root f = false →
      ((f ∈ task.ReCreateLinks ↔
          (∀ g ∈ files, calStored root g = false → dirOf root g = dirOf root f → f ≤ g)) ∧
        (f ∉ task.ReCreateLinks → f ∈ task.DeleteFiles)) := by
  rcases hl : dedupLoop root (sortStrings files) ({} : DeDupTask) [] with ⟨task0, err⟩
  have hinv : task0 = task ∧ err = none := by
    unfold DeDuplicate at h
    rw [hl] at h
    cases err with
    | some e =>
      have h2 : ((({} : DeDupTask), some e) : DeDupTask × Option String) = (task, none) := h
      exact absurd (congrArg Prod.snd h2) (by simp)
    | none =>
      have h2 : (if task0.ToKeep = "" then (({} : DeDupTask),
          some ("there is no file in calendar directory")) else (task0, none)) = (task, none) := h
      by_cases hk : task0.ToKeep = ""
      · rw [if_pos hk] at h2
        exact absurd (congrArg Prod.snd h2) (by simp)
      · rw [if_neg hk] at h2
        exact ⟨congrArg Prod.fst h2, rfl⟩
  rcases hinv with ⟨rfl, rfl⟩
  have hokS : ∀ f ∈ sortStrings files, inArchiveOk root f = true :=
    dedupLoop_ok_of_none root (sortStrings files) {} [] (by rw [hl])
  have hperm := sortStrings_perm files
  intro f hfmem hfncal
  have hfS : f ∈ sortStrings files := hperm.mem_iff.mpr hfmem
  have hiff := dedupLoop_rcl_iff root (sortStrings files) ({} : DeDupTask) [] f hokS
  rw [hl] at hiff
  have hiff2 : f ∈ task0.ReCreateLinks ↔
      (sortStrings files).find? (fun g => !calStored root g && (dirOf root g == dirOf root f))
        = some f := by
    rw [hiff]
    constructor
    · intro hc
      rcases hc with hc | ⟨_, hc2⟩
      · exact absurd hc (List.not_mem_nil f)
      · exact hc2
    · intro hfind
      exact Or.inr ⟨List.not_mem_nil _, hfind⟩
  constructor
  · rw [hiff2]
    constructor
    · intro hfind g hgmem hgncal hgdir
      refine sorted_find?_le (sortStrings_sorted files) hfind g (hperm.mem_iff.mpr hgmem) ?_
      simp [hgncal, hgdir]
    · intro hleast
      refine find?_eq_some_of_sorted_least (sortStrings_sorted files) hfS (by simp [hfncal]) ?_
      intro g hgS hpg
      have hpg2 : (!calStored root g) = true ∧ (dirOf root g == dirOf root f) = true := by
        simpa using hpg
      have hg1 : calStored root g = false := by
        simpa using hpg2.1
      have hg2 : dirOf root g = dirOf root f := beq_iff_eq.mp hpg2.2
      exact hleast g (hperm.mem_iff.mp hgS) hg1 hg2
  · intro hnotin
    have hfind_ne : (sortStrings files).find?
        (fun g => !calStored root g && (dirOf root g == dirOf root f)) ≠ some f :=
      fun hc => hnotin (hiff2.mpr hc)
    have hdel := dedupLoop_dir_delete root (sortStrings files) ({} : DeDupTask) [] f hokS
      hfncal hfS (Or.inr hfind_ne)
    rw [hl] at hdel
    exact hdel

theorem c1_witness :
    ∃ task, DeDuplicate ("Archive") ["Archive/2019/04/b.jpg", "Archive/2019/04/a.jpg"] =
        (task, none) ∧
      task.ToKeep ∈ (["Archive/2019/04/b.jpg", "Archive/2019/04/a.jpg"] : List String) ∧
      calStored ("Archive") task.ToKeep = true ∧
      (∀ f ∈ (["Archive/2019/04/b.jpg", "Archive/2019/04/a.jpg"] : List String),
        calStored ("Archive") f = true → task.ToKeep ≤ f) ∧
      (∀ f ∈ (["Archive/2019/04/b.jpg", "Archive/2019/04/a.jpg"] : List String),
        calStored ("Archive") f = true → f ≠ task.ToKeep → f ∈ task.DeleteFiles) :=
  c1_dedup_selects_min_calendar ("Archive") _ (by decide) (by decide)

theorem c2_witness :
    ("Archive/all/y.jpg" : String) ∈
      (DeDupTask.mk ("Archive/2019/04/k.jpg") ["Archive/all/x.jpg"]
        ["Archive/all/y.jpg"]).DeleteFiles := by
  have h := c2_one_link_per_directory ("Archive")
    ["Archive/2019/04/k.jpg", "Archive/all/x.jpg", "Archive/all/y.jpg"]
    (DeDupTask.mk ("Archive/2019/04/k.jpg") ["Archive/all/x.jpg"] ["Archive/all/y.jpg"])
    (by decide) ("Archive/all/y.jpg") (by decide) (by decide)
  exact h.2 (by decide)

theorem c3_witness :
    DeDuplicate ("Archive") ["Archive/all/x.jpg", "Archive/origin/y/x.jpg"] =
      ({ ToKeep := "", ReCreateLinks := [], DeleteFiles := [] },
        some ("there is no file in calendar directory")) :=
  c3_dedup_errors_without_calendar ("Archive") _ (by decide) (by decide)

theorem c6_witness :
    ∃ e, DeDuplicate ("Archive") ["other/baz.jpg", "Archive/2019/04/a.jpg"] =
      ({ ToKeep := "", ReCreateLinks := [], DeleteFiles := [] },
        some ("failed to find path in directory: " ++ e)) :=
  c6_dedup_containment_error ("Archive") _ (by decide)

theorem c7_witness :
    DeDuplicate ("Archive") ["Archive/all/x.jpg", "Archive/2019/04/a.jpg"] =
      DeDuplicate ("Archive") ["Archive/2019/04/a.jpg", "Archive/all/x.jpg"] :=
  c7_dedup_perm_invariant ("Archive") (by decide)

/-! ## Decimal formatting lemmas and the layout-vs-classifier claim -/

theorem natDecimalAux_congr : ∀ f1 f2 n, n < f1 → n < f2 → natDecimalAux f1 n = natDecimalAux f2 n := by
  intro f1
  induction f1 with
  | zero =>
    intro f2 n h1 _
    exact absurd h1 (Nat.not_lt_zero n)
  | succ f1 ih =>
    intro f2 n h1 h2
    cases f2 with
    | zero => exact absurd h2 (Nat.not_lt_zero n)
    | succ f2 =>
      simp only [natDecimalAux]
      by_cases hn : n < 10
      · rw [if_pos hn, if_pos hn]
      · rw [if_neg hn, if_neg hn]
        have hd : n / 10 < n := Nat.div_lt_self (by omega) (by omega)
        rw [ih f2 (n / 10) (by omega) (by omega)]

theorem natDecimalChars_eq (n : Nat) :
    natDecimalChars n =
      if n < 10 then [goDigitChar n]
      else natDecimalChars (n / 10) ++ [goDigitChar (n % 10)] := by
  rw [show natDecimalChars n =
      (if n < 10 then [goDigitChar n] else natDecimalAux n (n / 10) ++ [goDigitChar (n % 10)])
    from rfl]
  by_cases hn : n < 10
  · rw [if_pos hn, if_pos hn]
  · rw [if_neg hn, if_neg hn]
    have hd : n / 10 < n := Nat.div_lt_self (by omega) (by omega)
    rw [show natDecimalChars (n / 10) = natDecimalAux (n / 10 + 1) (n / 10) from rfl]
    rw [natDecimalAux_congr n (n / 10 + 1) (n / 10) hd (Nat.lt_succ_self _)]

theorem natDecimalChars_ne_nil (n : Nat) : natDecimalChars n ≠ [] := by
  rw [natDecimalChars_eq]
  by_cases hn : n < 10
  · rw [if_pos hn]
    simp
  · rw [if_neg hn]
    simp

theorem natDecimalChars_len_le : ∀ k n : Nat, n < 10 ^ k → (natDecimalChars n).length ≤ max 1 k := by
  intro k
  induction k with
  | zero =>
    intro n h
    rw [pow_zero] at h
    have h0 : n = 0 := by omega
    subst h0
    rw [natDecimalChars_eq, if_pos (by omega)]
    simp only [List.length_singleton]
    omega
  | succ k ih =>
    intro n h
    rw [natDecimalChars_eq]
    by_cases hn : n < 10
    · rw [if_pos hn]
      simp only [List.length_singleton]
      omega
    · rw [if_neg hn]
      have hk1 : 1 ≤ k := by
        by_contra hk
        have hk0 : k = 0 := by omega
        subst hk0
        have hp : (10 : Nat) ^ (0 + 1) = 10 := by norm_num
        rw [hp] at h
        omega
      have hlt : n / 10 < 10 ^ k := by
        rw [Nat.div_lt_iff_lt_mul (by omega)]
        calc n < 10 ^ (k + 1) := h
        _ = 10 ^ k * 10 := by rw [pow_succ]
      have hlen := ih (n / 10) hlt
      simp only [List.length_append, List.length_singleton]
      omega

theorem natDecimalChars_len_ge : ∀ k n : Nat, 10 ^ k ≤ n → k + 1 ≤ (natDecimalChars n).length := by
  intro k
  induction k with
  | zero =>
    intro n _
    cases hc : natDecimalChars n with
    | nil => exact absurd hc (natDecimalChars_ne_nil n)
    | cons a t =>
      simp
  | succ k ih =>
    intro n h
    have hn : ¬ n < 10 := by
      have h10 : (10 : Nat) ≤ 10 ^ (k + 1) := by
        calc (10 : Nat) = 10 ^ 1 := (pow_one 10).symm
        _ ≤ 10 ^ (k + 1) := Nat.pow_le_pow_right (by omega) (by omega)
      omega
    rw [natDecimalChars_eq, if_neg hn]
    have hge : 10 ^ k ≤ n / 10 := by
      rw [Nat.le_div_iff_mul_le (by omega)]
      calc 10 ^ k * 10 = 10 ^ (k + 1) := (pow_succ 10 k).symm
      _ ≤ n := h
    have hlen := ih (n / 10) hge
    simp only [List.length_append, List.length_singleton]
    omega

theorem goDigitChar_isDigit (d : Nat) : (goDigitChar d).isDigit = true := by
  unfold goDigitChar
  split <;> decide

theorem natDecimalChars_digits (n : Nat) : ∀ c ∈ natDecimalChars n, c.isDigit = true := by
  induction n using Nat.strong_induction_on with
  | _ n ih =>
    rw [natDecimalChars_eq]
    by_cases hn : n < 10
    · rw [if_pos hn]
      intro c hc
      rw [List.mem_singleton.mp hc]
      exact goDigitChar_isDigit n
    · rw [if_neg hn]
      intro c hc
      rcases List.mem_append.mp hc with h1 | h2
      · exact ih (n / 10) (Nat.div_lt_self (by omega) (by omega)) c h1
      · rw [List.mem_singleton.mp h2]
        exact goDigitChar_isDigit _

theorem digits_no_slash (l : List Char) (h : ∀ c ∈ l, c.isDigit = true) : '/' ∉ l := by
  intro hm
  exact absurd (h _ hm) (by decide)

theorem padZero_digits (w : Nat) (s : List Char) (h : ∀ c ∈ s, c.isDigit = true) :
    ∀ c ∈ padZero w s, c.isDigit = true := by
  intro c hc
  rcases List.mem_append.mp hc with h1 | h2
  · rw [List.eq_of_mem_replicate h1]
    decide
  · exact h c h2

theorem padZero_length (w : Nat) (s : List Char) : (padZero w s).length = max w s.length := by
  simp only [padZero, List.length_append, List.length_replicate]
  omega

/-- Claim C10: the `%d`-formatted year directory of `Sort` matches the
four-digit calendar classifier of `DeDuplicate` exactly for years 1000–9999;
for any other year the produced relative path is never calendar-stored.  And
on every successful deduplication the selected `ToKeep` is calendar-stored,
so such a path can never be selected as `ToKeep`. -/
theorem c10_sort_layout_vs_classifier :
    (∀ (y m : Nat) (name : String), m ≤ 99 → ('/' ∉ name.data) →
      (isCalendarStoredFile (goSprintfD y ++ "/" ++ goSprintf02d m ++ "/" ++ name) = true ↔
        (1000 ≤ y ∧ y ≤ 9999))) ∧
    (∀ (root : String) (files : List String) (task : DeDupTask),
      DeDuplicate root files = (task, none) → calStored root task.ToKeep = true) := by
  constructor
  · intro y m name hm hns
    have hdata : (goSprintfD y ++ "/" ++ goSprintf02d m ++ "/" ++ name).data =
        natDecimalChars y ++ '/' :: (padZero 2 (natDecimalChars m) ++ '/' :: name.data) := by
      simp only [String.data_append]
      show natDecimalChars y ++ ['/'] ++ padZero 2 (natDecimalChars m) ++ ['/'] ++ name.data = _
      simp [List.append_assoc]
    have hsp : splitChar ((goSprintfD y ++ "/" ++ goSprintf02d m ++ "/" ++ name).data) =
        [natDecimalChars y, padZero 2 (natDecimalChars m), name.data] := by
      rw [hdata, splitChar_append, splitChar_append,
        splitChar_no_slash _ (digits_no_slash _ (natDecimalChars_digits y)),
        splitChar_no_slash _ (digits_no_slash _ (padZero_digits 2 _ (natDecimalChars_digits m))),
        splitChar_no_slash _ hns]
      rfl
    unfold isCalendarStoredFile
    rw [hsp]
    show ((natDecimalChars y).length == 4 && (natDecimalChars y).all Char.isDigit &&
        ((padZero 2 (natDecimalChars m)).length == 2) &&
        (padZero 2 (natDecimalChars m)).all Char.isDigit) = true ↔ (1000 ≤ y ∧ y ≤ 9999)
    have hyd : (natDecimalChars y).all Char.isDigit = true :=
      List.all_eq_true.mpr (fun c hc => natDecimalChars_digits y c hc)
    have hmd : (padZero 2 (natDecimalChars m)).all Char.isDigit = true :=
      List.all_eq_true.mpr (fun c hc => padZero_digits 2 _ (natDecimalChars_digits m) c hc)
    have hm2 : m < 10 ^ 2 := lt_of_le_of_lt hm (by norm_num)
    have hml : (padZero 2 (natDecimalChars m)).length = 2 := by
      rw [padZero_length]
      have hlen := natDecimalChars_len_le 2 m hm2
      omega
    rw [hyd, hmd, hml]
    simp only [Bool.and_true, beq_self_eq_true]
    rw [show (((natDecimalChars y).length == 4) = true) ↔ (natDecimalChars y).length = 4 from
      beq_iff_eq]
    have e3 : (10 : Nat) ^ 3 = 1000 := by norm_num
    have e4 : (10 : Nat) ^ 4 = 10000 := by norm_num
    constructor
    · intro hlen4
      constructor
      · by_contra hy
        have hlt : y < 10 ^ 3 := by omega
        have := natDecimalChars_len_le 3 y hlt
        omega
      · by_contra hy
        have hge : 10 ^ 4 ≤ y := by omega
        have := natDecimalChars_len_ge 4 y hge
        omega
    · intro hy
      have ha := natDecimalChars_len_ge 3 y (by omega)
      have hb := natDecimalChars_len_le 4 y (by omega)
      omega
  · intro root files task h
    rcases hl : dedupLoop root (sortStrings files) ({} : DeDupTask) [] with ⟨task0, err⟩
    have hinv : task0 = task ∧ err = none ∧ ¬ task0.ToKeep = "" := by
      unfold DeDuplicate at h
      rw [hl] at h
      cases err with
      | some e =>
        have h2 : ((({} : DeDupTask), some e) : DeDupTask × Option String) = (task, none) := h
        exact absurd (congrArg Prod.snd h2) (by simp)
      | none =>
        have h2 : (if task0.ToKeep = "" then (({} : DeDupTask),
            some ("there is no file in calendar directory")) else (task0, none)) = (task, none) := h
        by_cases hk : task0.ToKeep = ""
        · rw [if_pos hk] at h2
          exact absurd (congrArg Prod.snd h2) (by simp)
        · rw [if_neg hk] at h2
          exact ⟨congrArg Prod.fst h2, rfl, hk⟩
    rcases hinv with ⟨rfl, rfl, hk⟩
    have hokS : ∀ f ∈ sortStrings files, inArchiveOk root f = true :=
      dedupLoop_ok_of_none root (sortStrings files) {} [] (by rw [hl])
    have hkeep : task0.ToKeep = (((sortStrings files).find? (fun g => calStored root g)).getD "") := by
      have h2 := dedupLoop_toKeep_find root (sortStrings files) {} [] hokS rfl
      rw [hl] at h2
      exact h2
    rcases hfind : (sortStrings files).find? (fun g => calStored root g) with _ | k
    · rw [hfind] at hkeep
      exact absurd hkeep hk
    · rw [hfind] at hkeep
      rw [hkeep]
      exact List.find?_some hfind

theorem c10_witness :
    (isCalendarStoredFile (goSprintfD 999 ++ "/" ++ goSprintf02d 8 ++ "/" ++ "x.jpg") = false) ∧
    (isCalendarStoredFile (goSprintfD 2019 ++ "/" ++ goSprintf02d 4 ++ "/" ++ "x.jpg") = true) := by
  have h1 := c10_sort_layout_vs_classifier.1 999 8 ("x.jpg") (by omega) (by decide)
  have h2 := c10_sort_layout_vs_classifier.1 2019 4 ("x.jpg") (by omega) (by decide)
  constructor
  · cases hc : isCalendarStoredFile (goSprintfD 999 ++ "/" ++ goSprintf02d 8 ++ "/" ++ "x.jpg")
    · rfl
    · rcases h1.mp hc with ⟨hcontra, _⟩
      omega
  · exact h2.mpr (by omega)

/-! ## Clean-path concatenation and the canonical-path claim -/

theorem cleanFold_push (rooted : Bool) (bs : List (List Char))
    (hb : ∀ c ∈ bs, ¬(c = [] ∨ c = ['.']) ∧ c ≠ ['.', '.']) :
    ∀ st, List.foldl (cleanStep rooted) st bs = bs.reverse ++ st := by
  induction bs with
  | nil =>
    intro st
    simp
  | cons c rest ih =>
    intro st
    have hc := hb c (List.mem_cons_self c rest)
    have hstep : cleanStep rooted st c = c :: st := by
      unfold cleanStep
      rw [if_neg hc.1, if_neg hc.2]
    rw [List.foldl_cons, hstep, ih (fun x hx => hb x (List.mem_cons_of_mem _ hx))]
    simp

theorem pathCleanChars_append (a b : List Char)
    (ha : pathCleanChars a = a) (ha1 : a ≠ ['.']) (ha2 : a ≠ ['/'])
    (hb : ∀ c ∈ splitChar b, ¬(c = [] ∨ c = ['.']) ∧ c ≠ ['.', '.']) :
    pathCleanChars (a ++ '/' :: b) = a ++ '/' :: b := by
  have ha0 : a ≠ [] := by
    intro h
    rw [h] at ha
    cases ha
  have hane : a ++ '/' :: b ≠ [] := by
    intro h
    rcases List.append_eq_nil.mp h with ⟨h1, _⟩
    exact ha0 h1
  have hhead : (a ++ '/' :: b).head? = a.head? := by
    cases a with
    | nil => exact absurd rfl ha0
    | cons x xs => rfl
  have hsplit : splitChar (a ++ '/' :: b) = splitChar a ++ splitChar b := splitChar_append a b
  have hout : ∀ r : Bool, cleanComps r (splitChar a ++ splitChar b) =
      cleanComps r (splitChar a) ++ splitChar b := by
    intro r
    unfold cleanComps
    rw [List.foldl_append, cleanFold_push r (splitChar b) hb, List.reverse_append,
      List.reverse_reverse]
  have hsb : splitChar b ≠ [] := splitChar_ne_nil b
  by_cases hr : a.head? = some '/'
  · have hF : pathCleanChars a = '/' :: joinSlash (cleanComps true (splitChar a)) :=
      pathCleanChars_rooted a ha0 hr
    have hoa : cleanComps true (splitChar a) ≠ [] := by
      intro h0
      rw [h0] at hF
      rw [ha] at hF
      exact ha2 hF
    rw [pathCleanChars_rooted _ hane (by rw [hhead]; exact hr), hsplit, hout true,
      joinSlash_append _ _ hoa hsb, joinSlash_splitChar]
    rw [ha] at hF
    conv_rhs => rw [hF]
    rfl
  · have hF : pathCleanChars a =
        if cleanComps false (splitChar a) = [] then ['.']
        else joinSlash (cleanComps false (splitChar a)) :=
      pathCleanChars_unrooted a ha0 hr
    have hoa : cleanComps false (splitChar a) ≠ [] := by
      intro h0
      rw [h0, if_pos rfl] at hF
      rw [ha] at hF
      exact ha1 hF
    rw [if_neg hoa] at hF
    rw [ha] at hF
    have hne2 : (a ++ '/' :: b).head? ≠ some '/' := by
      rw [hhead]
      exact hr
    rw [pathCleanChars_unrooted _ hane hne2, hsplit, hout false]
    rw [if_neg (by
      intro h0
      rcases List.append_eq_nil.mp h0 with ⟨_, h2⟩
      exact hsb h2)]
    rw [joinSlash_append _ _ hoa hsb, joinSlash_splitChar]
    conv_rhs => rw [hF]

theorem pathJoin_ne (a b : String) (ha : a ≠ "") (hb : b ≠ "") :
    pathJoin a b = ⟨pathCleanChars (a.data ++ '/' :: b.data)⟩ := by
  unfold pathJoin
  rw [if_neg (fun h => ha h.1), if_neg ha, if_neg hb]

theorem isDigit_ne_slash {c : Char} (h : c.isDigit = true) : c ≠ '/' := by
  intro he
  rw [he] at h
  exact absurd h (by decide)

theorem isDigit_ne_dot {c : Char} (h : c.isDigit = true) : c ≠ '.' := by
  intro he
  rw [he] at h
  exact absurd h (by decide)

theorem digitComp_nice (l : List Char) (hne : l ≠ []) (hd : ∀ c ∈ l, c.isDigit = true) :
    ¬(l = [] ∨ l = ['.']) ∧ l ≠ ['.', '.'] := by
  refine ⟨?_, ?_⟩
  · intro hcase
    rcases hcase with h1 | h1
    · exact hne h1
    · exact isDigit_ne_dot (hd '.' (by rw [h1]; exact List.mem_singleton_self _)) rfl
  · intro h1
    exact isDigit_ne_dot (hd '.' (by rw [h1]; exact List.mem_cons_self _ _)) rfl

theorem hexDigitChar_ne_slash (d : Nat) : hexDigitChar d ≠ '/' := by
  unfold hexDigitChar
  split <;> decide

theorem hexChars_no_slash (bytes : List Nat) : ∀ c ∈ hexChars bytes, c ≠ '/' := by
  intro c hc
  rcases List.mem_flatMap.mp hc with ⟨b, _, hcb⟩
  rcases List.mem_cons.mp hcb with rfl | hcb2
  · exact hexDigitChar_ne_slash _
  · rw [List.mem_singleton.mp hcb2]
    exact hexDigitChar_ne_slash _

theorem pathExtChars_no_slash : ∀ (l acc : List Char), (∀ c ∈ acc, c ≠ '/') →
    ∀ c ∈ pathExtChars l acc, c ≠ '/' := by
  intro l
  induction l with
  | nil =>
    intro acc _ c hc
    cases hc
  | cons x xs ih =>
    intro acc hacc c hc
    unfold pathExtChars at hc
    by_cases h1 : x = '/'
    · rw [if_pos h1] at hc
      cases hc
    · rw [if_neg h1] at hc
      by_cases h2 : x = '.'
      · rw [if_pos h2] at hc
        rcases List.mem_cons.mp hc with rfl | hc2
        · rw [h2]
          decide
        · exact hacc c hc2
      · rw [if_neg h2] at hc
        refine ih (x :: acc) ?_ c hc
        intro d hd
        rcases List.mem_cons.mp hd with rfl | hd2
        · exact h1
        · exact hacc d hd2

theorem no_slash_append {l1 l2 : List Char} (h1 : ∀ c ∈ l1, c ≠ '/') (h2 : ∀ c ∈ l2, c ≠ '/') :
    ∀ c ∈ l1 ++ l2, c ≠ '/' :=
  fun c hc => (List.mem_append.mp hc).elim (h1 c) (h2 c)

theorem padZero_no_slash (w n : Nat) : ∀ c ∈ padZero w (natDecimalChars n), c ≠ '/' :=
  fun c hc => isDigit_ne_slash (padZero_digits w _ (natDecimalChars_digits n) c hc)

theorem formatDate_no_slash (d : Date) : ∀ c ∈ (formatDate d).data, c ≠ '/' := by
  show ∀ c ∈ padZero 4 (natDecimalChars d.year) ++ padZero 2 (natDecimalChars d.month) ++
      padZero 2 (natDecimalChars d.day) ++ '_' ::
      (padZero 2 (natDecimalChars d.hour) ++ padZero 2 (natDecimalChars d.minute) ++
        padZero 2 (natDecimalChars d.second)), c ≠ '/'
  refine no_slash_append (no_slash_append (no_slash_append (padZero_no_slash 4 _)
    (padZero_no_slash 2 _)) (padZero_no_slash 2 _)) ?_
  intro c hc
  rcases List.mem_cons.mp hc with rfl | hc2
  · decide
  · exact no_slash_append (no_slash_append (padZero_no_slash 2 _) (padZero_no_slash 2 _))
      (padZero_no_slash 2 _) c hc2

theorem hexTake8_no_slash (sum : List Nat) : ∀ c ∈ (hexTake8 sum).data, c ≠ '/' := by
  show ∀ c ∈ (hexChars sum).take 8, c ≠ '/'
  intro c hc
  exact hexChars_no_slash sum c (List.mem_of_mem_take hc)

theorem pathExt_no_slash (p : String) : ∀ c ∈ (pathExt p).data, c ≠ '/' := by
  show ∀ c ∈ pathExtChars p.data.reverse [], c ≠ '/'
  exact pathExtChars_no_slash _ [] (fun c hc => absurd hc (List.not_mem_nil c))

theorem formatDate_len (d : Date) : 15 ≤ (formatDate d).data.length := by
  show 15 ≤ (padZero 4 (natDecimalChars d.year) ++ padZero 2 (natDecimalChars d.month) ++
      padZero 2 (natDecimalChars d.day) ++ '_' ::
      (padZero 2 (natDecimalChars d.hour) ++ padZero 2 (natDecimalChars d.minute) ++
        padZero 2 (natDecimalChars d.second))).length
  simp only [List.length_append, List.length_cons, padZero_length]
  omega

theorem data_of_ne_empty {s : String} (h : s ≠ "") : s.data ≠ [] := by
  intro hd
  exact h (String.toList_inj.mp hd)

theorem ne_empty_of_data {s : String} (h : s.data ≠ []) : s ≠ "" := by
  intro he
  rw [he] at h
  exact h rfl

/-- Claim C4: when the media check and date extraction succeed and the copy
produces digest `sum`, `Sort` returns the canonical path
`archiveRoot/<year>/<zero-padded month>/<YYYYMMDD_HHMMSS>_<hex8><ext>`. -/
theorem c4_sort_canonical_path (env : SortEnv) (archiveDir sourceDir fname : String)
    (date : Date) (sum : List Nat)
    (hclean : pathClean archiveDir = archiveDir)
    (hroot1 : archiveDir ≠ ".") (hroot2 : archiveDir ≠ "/")
    (hmedia : env.isMedia fname = .ok true)
    (hdate : env.extractor fname = .ok date)
    (hcopy : ∀ dst, env.copier fname dst = .ok sum)
    (hmk : ∀ p, env.fileSystem.mkdir p = none)
    (hren : ∀ a b, env.rename a b = none) :
    (AlgorithmSort env archiveDir sourceDir fname).1.1 =
      archiveDir ++ "/" ++ goSprintfD date.year ++ "/" ++ goSprintf02d date.month ++ "/" ++
        formatDate date ++ "_" ++ hexTake8 sum ++ pathExt fname := by
  have hcd : pathCleanChars archiveDir.data = archiveDir.data := congrArg String.data hclean
  have had1 : archiveDir.data ≠ ['.'] := fun h => hroot1 (String.toList_inj.mp h)
  have had2 : archiveDir.data ≠ ['/'] := fun h => hroot2 (String.toList_inj.mp h)
  have hane : archiveDir ≠ "" := by
    intro h
    rw [h] at hcd
    exact absurd hcd (by decide)
  have hadne : archiveDir.data ≠ [] := data_of_ne_empty hane
  -- the year/month component of the target directory
  have hb1data : (goSprintfD date.year ++ "/" ++ goSprintf02d date.month).data =
      natDecimalChars date.year ++ '/' :: padZero 2 (natDecimalChars date.month) := by
    simp only [String.data_append]
    show natDecimalChars date.year ++ ['/'] ++ padZero 2 (natDecimalChars date.month) = _
    simp
  have hb1ne : (goSprintfD date.year ++ "/" ++ goSprintf02d date.month) ≠ "" := by
    apply ne_empty_of_data
    rw [hb1data]
    intro h
    rcases List.append_eq_nil.mp h with ⟨_, h2⟩
    cases h2
  have hsp1 : splitChar ((goSprintfD date.year ++ "/" ++ goSprintf02d date.month).data) =
      [natDecimalChars date.year, padZero 2 (natDecimalChars date.month)] := by
    rw [hb1data, splitChar_append,
      splitChar_no_slash _ (digits_no_slash _ (natDecimalChars_digits _)),
      splitChar_no_slash _ (digits_no_slash _ (padZero_digits 2 _ (natDecimalChars_digits _)))]
    rfl
  have hpadne : padZero 2 (natDecimalChars date.month) ≠ [] := by
    intro h0
    have hl := padZero_length 2 (natDecimalChars date.month)
    rw [h0] at hl
    simp only [List.length_nil] at hl
    omega
  have hb1nice : ∀ c ∈ splitChar ((goSprintfD date.year ++ "/" ++ goSprintf02d date.month).data),
      ¬(c = [] ∨ c = ['.']) ∧ c ≠ ['.', '.'] := by
    rw [hsp1]
    intro c hc
    rcases List.mem_cons.mp hc with rfl | hc2
    · exact digitComp_nice _ (natDecimalChars_ne_nil _) (natDecimalChars_digits _)
    · rw [List.mem_singleton.mp hc2]
      exact digitComp_nice _ hpadne (padZero_digits 2 _ (natDecimalChars_digits _))
  have hstep1 : pathCleanChars (archiveDir.data ++ '/' ::
        (goSprintfD date.year ++ "/" ++ goSprintf02d date.month).data) =
      archiveDir.data ++ '/' :: (goSprintfD date.year ++ "/" ++ goSprintf02d date.month).data :=
    pathCleanChars_append _ _ hcd had1 had2 hb1nice
  have htd : (pathJoin archiveDir (goSprintfD date.year ++ "/" ++ goSprintf02d date.month)).data =
      archiveDir.data ++ '/' :: (goSprintfD date.year ++ "/" ++ goSprintf02d date.month).data := by
    rw [pathJoin_ne _ _ hane hb1ne]
    exact hstep1
  have htdclean :
      pathCleanChars ((pathJoin archiveDir (goSprintfD date.year ++ "/" ++ goSprintf02d date.month)).data) =
      (pathJoin archiveDir (goSprintfD date.year ++ "/" ++ goSprintf02d date.month)).data := by
    rw [htd]
    exact hstep1
  have htdne : pathJoin archiveDir (goSprintfD date.year ++ "/" ++ goSprintf02d date.month) ≠ "" := by
    apply ne_empty_of_data
    rw [htd]
    intro h
    rcases List.append_eq_nil.mp h with ⟨_, h2⟩
    cases h2
  have htdlen : 3 ≤ ((pathJoin archiveDir (goSprintfD date.year ++ "/" ++ goSprintf02d date.month)).data).length := by
    rw [htd, hb1data]
    simp only [List.length_append, List.length_cons]
    have h1 : 1 ≤ archiveDir.data.length := List.length_pos.mpr hadne
    have h2 : 1 ≤ (natDecimalChars date.year).length :=
      List.length_pos.mpr (natDecimalChars_ne_nil _)
    omega
  have htd1 : (pathJoin archiveDir (goSprintfD date.year ++ "/" ++ goSprintf02d date.month)).data ≠ ['.'] := by
    intro h
    have := congrArg List.length h
    simp only [List.length_singleton] at this
    omega
  have htd2 : (pathJoin archiveDir (goSprintfD date.year ++ "/" ++ goSprintf02d date.month)).data ≠ ['/'] := by
    intro h
    have := congrArg List.length h
    simp only [List.length_singleton] at this
    omega
  -- the canonical file name
  have htfn_noslash : ∀ c ∈ (formatDate date ++ "_" ++ hexTake8 sum ++ pathExt fname).data, c ≠ '/' := by
    simp only [String.data_append]
    refine no_slash_append (no_slash_append (no_slash_append (formatDate_no_slash date) ?_)
      (hexTake8_no_slash sum)) (pathExt_no_slash fname)
    intro c hc
    rw [List.mem_singleton.mp hc]
    decide
  have htfn_noslash2 : '/' ∉ (formatDate date ++ "_" ++ hexTake8 sum ++ pathExt fname).data := by
    intro hm
    exact htfn_noslash '/' hm rfl
  have htfn_len : 15 ≤ ((formatDate date ++ "_" ++ hexTake8 sum ++ pathExt fname).data).length := by
    simp only [String.data_append, List.length_append]
    have := formatDate_len date
    omega
  have htfn_ne : (formatDate date ++ "_" ++ hexTake8 sum ++ pathExt fname) ≠ "" := by
    apply ne_empty_of_data
    intro h
    rw [h] at htfn_len
    simp at htfn_len
  have htfn_nice : ∀ c ∈ splitChar ((formatDate date ++ "_" ++ hexTake8 sum ++ pathExt fname).data),
      ¬(c = [] ∨ c = ['.']) ∧ c ≠ ['.', '.'] := by
    rw [splitChar_no_slash _ htfn_noslash2]
    intro c hc
    rw [List.mem_singleton.mp hc]
    refine ⟨?_, ?_⟩
    · intro hcase
      rcases hcase with h | h
      · rw [h] at htfn_len
        simp at htfn_len
      · rw [h] at htfn_len
        simp at htfn_len
    · intro h
      rw [h] at htfn_len
      simp at htfn_len
  have hstep2 := pathCleanChars_append
    ((pathJoin archiveDir (goSprintfD date.year ++ "/" ++ goSprintf02d date.month)).data)
    ((formatDate date ++ "_" ++ hexTake8 sum ++ pathExt fname).data)
    htdclean htd1 htd2 htfn_nice
  have htfp : (pathJoin (pathJoin archiveDir (goSprintfD date.year ++ "/" ++ goSprintf02d date.month))
        (formatDate date ++ "_" ++ hexTake8 sum ++ pathExt fname)).data =
      (pathJoin archiveDir (goSprintfD date.year ++ "/" ++ goSprintf02d date.month)).data ++
        '/' :: (formatDate date ++ "_" ++ hexTake8 sum ++ pathExt fname).data := by
    rw [pathJoin_ne _ _ htdne htfn_ne]
    exact hstep2
  -- run the algorithm
  have hED : ∀ p, EnsureDirectory env.fileSystem p = (none, [FsEvent.mkdirAll p]) := by
    intro p
    unfold EnsureDirectory
    rw [hmk]
  have hgoal : (AlgorithmSort env archiveDir sourceDir fname).1.1 =
      pathJoin (pathJoin archiveDir (goSprintfD date.year ++ "/" ++ goSprintf02d date.month))
        (formatDate date ++ "_" ++ hexTake8 sum ++ pathExt fname) := by
    simp only [AlgorithmSort, hmedia, hdate, hED, hcopy, hren]
    rcases horig : originArchiveFileName archiveDir sourceDir fname
        (formatDate date ++ "_" ++ hexTake8 sum ++ pathExt fname) with e | o
    · rfl
    · rcases hCL : CreateLinks env.fileSystem
          [pathJoin (pathJoin archiveDir ("all"))
            (formatDate date ++ "_" ++ hexTake8 sum ++ pathExt fname), o]
          (pathJoin (pathJoin archiveDir (goSprintfD date.year ++ "/" ++ goSprintf02d date.month))
            (formatDate date ++ "_" ++ hexTake8 sum ++ pathExt fname)) with ⟨r, tr⟩
      simp [hCL]
  rw [hgoal]
  apply String.toList_inj.mp
  show (pathJoin (pathJoin archiveDir (goSprintfD date.year ++ "/" ++ goSprintf02d date.month))
      (formatDate date ++ "_" ++ hexTake8 sum ++ pathExt fname)).data = _
  rw [htfp, htd, hb1data]
  simp [String.data_append, List.append_assoc]
  rfl

theorem c4_witness :
    (AlgorithmSort
        ⟨fun _ => .ok true, fun _ => .ok ⟨2019, 4, 17, 13, 30, 44⟩,
          fun _ _ => .ok [0x53, 0x78, 0x42, 0xc8], fun _ _ => none,
          ⟨fun _ => none, fun _ _ => none, fun _ => none⟩⟩
        ("Archive") ("src") ("src/photo.jpg")).1.1 =
      "Archive/2019/04/20190417_133044_537842c8.jpg" := by
  have h := c4_sort_canonical_path
    ⟨fun _ => .ok true, fun _ => .ok ⟨2019, 4, 17, 13, 30, 44⟩,
      fun _ _ => .ok [0x53, 0x78, 0x42, 0xc8], fun _ _ => none,
      ⟨fun _ => none, fun _ _ => none, fun _ => none⟩⟩
    ("Archive") ("src") ("src/photo.jpg") ⟨2019, 4, 17, 13, 30, 44⟩ [0x53, 0x78, 0x42, 0xc8]
    (by decide) (by decide) (by decide) rfl rfl (fun _ => rfl) (fun _ => rfl) (fun _ _ => rfl)
  rw [h]
  decide

/-- Claim C8: on a non-media file `Sort` fails with the sentinel condition
before any filesystem mutation, and the `sort` command driver treats that
error as a skip, not a failure to report. -/
theorem c8_sort_skips_non_media (env : SortEnv) (archiveDir sourceDir fname : String)
    (h : env.isMedia fname = .ok false) :
    AlgorithmSort env archiveDir sourceDir fname =
      (("", some ("given file is not a media file")), []) ∧
    sortCmdReportsError (AlgorithmSort env archiveDir sourceDir fname).1.2 = false := by
  have h1 : AlgorithmSort env archiveDir sourceDir fname =
      (("", some ("given file is not a media file")), []) := by
    simp only [AlgorithmSort, h]
  refine ⟨h1, ?_⟩
  rw [h1]
  rfl

theorem c8_witness :
    AlgorithmSort
        ⟨fun _ => .ok false, fun _ => .error (""), fun _ _ => .error (""), fun _ _ => none,
          ⟨fun _ => none, fun _ _ => none, fun _ => none⟩⟩
        ("Archive") ("src") ("notes.txt") =
      (("", some ("given file is not a media file")), []) ∧
    sortCmdReportsError (AlgorithmSort
        ⟨fun _ => .ok false, fun _ => .error (""), fun _ _ => .error (""), fun _ _ => none,
          ⟨fun _ => none, fun _ _ => none, fun _ => none⟩⟩
        ("Archive") ("src") ("notes.txt")).1.2 = false :=
  c8_sort_skips_non_media _ ("Archive") ("src") ("notes.txt") rfl

/-! ## Execution of deduplication plans -/

theorem createLinks_allOk (fs : FileSystem) (hfs : fsAllOk fs) :
    ∀ (paths : List String) (target : String),
      CreateLinks fs paths target =
        (none, paths.flatMap (fun p =>
          [FsEvent.remove p, FsEvent.mkdirAll (filepathDir p), FsEvent.link target p])) := by
  intro paths
  induction paths with
  | nil =>
    intro target
    rfl
  | cons p rest ih =>
    intro target
    have hEA : EnsureAbsent fs p = (none, [FsEvent.remove p]) := by
      unfold EnsureAbsent
      rcases hfd : fs.fd p with _ | err
      · rfl
      · cases err with
        | notExist => rfl
        | other m => exact absurd hfd (hfs.1 p m)
    have hED : EnsureDirectory fs (filepathDir p) = (none, [FsEvent.mkdirAll (filepathDir p)]) := by
      unfold EnsureDirectory
      rw [hfs.2.1]
    simp only [CreateLinks, hEA, hED, hfs.2.2, ih]
    rfl

theorem deleteAll_allOk (fs : FileSystem) (hfs : fsAllOk fs) :
    ∀ paths : List String, deleteAll fs paths = (none, paths.map FsEvent.remove) := by
  intro paths
  induction paths with
  | nil => rfl
  | cons p rest ih =>
    have hEA : EnsureAbsent fs p = (none, [FsEvent.remove p]) := by
      unfold EnsureAbsent
      rcases hfd : fs.fd p with _ | err
      · rfl
      · cases err with
        | notExist => rfl
        | other m => exact absurd hfd (hfs.1 p m)
    simp only [deleteAll, hEA, ih]
    rfl

theorem runTask_allOk (fs : FileSystem) (hfs : fsAllOk fs) (task : DeDupTask) :
    runTask fs task = (none, plannedGroupEvents task) := by
  unfold runTask plannedGroupEvents
  rw [createLinks_allOk fs hfs, deleteAll_allOk fs hfs]

/-- Claim C5: `DeduplicateAll` processes groups in order.  When every plan
and every filesystem primitive succeeds (with removal of an absent file not
an error), the emitted mutations are, per group, first the unlink /
mkdir-parent / hard-link triple for every `ReCreateLinks` entry and only
afterwards the unlinks of `DeleteFiles`.  And the first failing group aborts
the run: groups after it are never processed. -/
theorem c5_dedupall_plan_execution (root : String) (fs : FileSystem) :
    (∀ gs : List (List String), fsAllOk fs → (∀ g ∈ gs, (DeDuplicate root g).2 = none) →
      DeduplicateAll root gs fs =
        (none, gs.flatMap (fun g => plannedGroupEvents (DeDuplicate root g).1))) ∧
    (∀ (gs1 : List (List String)) (g : List String) (gs2 : List (List String)),
      ((DeDuplicate root g).2.isSome = true ∨
        (runTask fs (DeDuplicate root g).1).1.isSome = true) →
      DeduplicateAll root (gs1 ++ g :: gs2) fs = DeduplicateAll root (gs1 ++ [g]) fs) := by
  constructor
  · intro gs hfs hplan
    induction gs with
    | nil => rfl
    | cons g rest ih =>
      rcases hdg : DeDuplicate root g with ⟨task, err⟩
      have herr : err = none := by
        have h2 := hplan g (List.mem_cons_self g rest)
        rw [hdg] at h2
        exact h2
      subst herr
      have hplan2 : ∀ g2 ∈ rest, (DeDuplicate root g2).2 = none :=
        fun g2 hg2 => hplan g2 (List.mem_cons_of_mem _ hg2)
      simp only [DeduplicateAll, hdg, runTask_allOk fs hfs task, ih hplan2]
      simp [hdg]
  · intro gs1 g gs2 hfail
    induction gs1 with
    | nil =>
      show DeduplicateAll root (g :: gs2) fs = DeduplicateAll root [g] fs
      rcases hdg : DeDuplicate root g with ⟨task, err⟩
      cases err with
      | some e => simp only [DeduplicateAll, hdg]
      | none =>
        rcases hrt : runTask fs task with ⟨r, tr⟩
        cases r with
        | some e => simp only [DeduplicateAll, hdg, hrt]
        | none =>
          exfalso
          rcases hfail with hf | hf
          · rw [hdg] at hf
            cases hf
          · rw [hdg] at hf
            rw [show (runTask fs (task, (none : Option String)).1).1 = none from by
              rw [hrt]] at hf
            cases hf
    | cons h t ih =>
      show DeduplicateAll root (h :: (t ++ g :: gs2)) fs =
        DeduplicateAll root (h :: (t ++ [g])) fs
      rcases hdh : DeDuplicate root h with ⟨taskh, errh⟩
      cases errh with
      | some e => simp only [DeduplicateAll, hdh]
      | none =>
        rcases hrth : runTask fs taskh with ⟨rh, trh⟩
        cases rh with
        | some e => simp only [DeduplicateAll, hdh, hrth]
        | none =>
          simp only [DeduplicateAll, hdh, hrth]
          rw [ih]

theorem c5_witness :
    DeduplicateAll ("Archive") [["Archive/2019/04/a.jpg", "Archive/all/a.jpg"]]
        ⟨fun _ => some FsErr.notExist, fun _ _ => none, fun _ => none⟩ =
      (none, [FsEvent.remove ("Archive/all/a.jpg"), FsEvent.mkdirAll ("Archive/all"),
        FsEvent.link ("Archive/2019/04/a.jpg") ("Archive/all/a.jpg")]) := by
  have h := (c5_dedupall_plan_execution ("Archive")
      ⟨fun _ => some FsErr.notExist, fun _ _ => none, fun _ => none⟩).1
    [["Archive/2019/04/a.jpg", "Archive/all/a.jpg"]]
    ⟨fun p m hcontra => FsErr.noConfusion (Option.some.inj hcontra),
      fun p => rfl, fun t p => rfl⟩
    (by decide)
  rw [h]
  decide
